import Mathlib

/-!
Verification of the company-name normalization and duplicate-folder-merging
engine of the OCRganizer repository (module `src/company_normalizer.py`).

The Python code is shallowly embedded: strings are Lean `String`s processed as
`List Char` (the names handled by the program are ASCII, so the ASCII case
mapping models `str.lower`, `str.upper` and `str.capitalize`); Python `float`
scores are modelled exactly as rationals (`ℚ`); Python `set`s of strings are
modelled as duplicate-free lists; the `dict` preserving insertion order is
modelled as an association list in insertion order whose lookups take the
first matching key.  `difflib.SequenceMatcher` (used via `.ratio()`) is
embedded following the stdlib algorithm: the dynamic-programming longest
matching block search, the non-junk extension loops, and the recursive
Ratcliff/Obershelp decomposition.  The `isjunk` parameter is `None` in the
source; the autojunk popularity cutoff (active for second strings of length
at least 200) is included in `b2j`.  Loops whose Python form is `while` are
written with an explicit fuel argument large enough that the fuel never runs
out on the inputs the program reaches; this keeps every definition
executable by the kernel.
-/

namespace OCRg

/-- Python `\s` on ASCII text: the six whitespace characters. -/
def isPySpace (c : Char) : Bool :=
  c = ' ' || c = '\t' || c = '\n' || c = '\x0d' || c = '\x0b' || c = '\x0c'

/-- Python `\w` on ASCII text: letters, digits and underscore. -/
def isWordChar (c : Char) : Bool :=
  ('a' ≤ c && c ≤ 'z') || ('A' ≤ c && c ≤ 'Z') || ('0' ≤ c && c ≤ '9') || c = '_'

/-- ASCII lower-casing of one character (models `str.lower`). -/
def toLowerCh (c : Char) : Char :=
  if 'A' ≤ c && c ≤ 'Z' then Char.ofNat (c.toNat + 32) else c

/-- ASCII upper-casing of one character (models `str.upper`). -/
def toUpperCh (c : Char) : Char :=
  if 'a' ≤ c && c ≤ 'z' then Char.ofNat (c.toNat - 32) else c

/-- `str.lower` on a whole string. -/
def lowerStr (s : String) : String :=
  String.mk (s.data.map toLowerCh)

/-- `str.upper` on a whole string. -/
def upperStr (s : String) : String :=
  String.mk (s.data.map toUpperCh)

/-- Python `str.strip()` (whitespace from both ends) on character lists. -/
def pyStrip (l : List Char) : List Char :=
  ((l.dropWhile isPySpace).reverse.dropWhile isPySpace).reverse

/-- Python `str.strip("_")` on character lists. -/
def stripUnderscores (l : List Char) : List Char :=
  ((l.dropWhile (· = '_')).reverse.dropWhile (· = '_')).reverse

/-- `re.sub(r"[^\w\s]", " ", s)`: every character that is neither a word
character nor whitespace becomes a single space. -/
def punctToSpace (l : List Char) : List Char :=
  l.map (fun c => if isWordChar c || isPySpace c then c else ' ')

/-- `re.sub(r"\s+", " ", s)`: each maximal whitespace run becomes one space. -/
def collapseSpaces : List Char → List Char
  | [] => []
  | [c] => if isPySpace c then [' '] else [c]
  | c :: d :: rest =>
    if isPySpace c && isPySpace d then collapseSpaces (d :: rest)
    else (if isPySpace c then ' ' else c) :: collapseSpaces (d :: rest)

/-- `re.sub(r"\s+", "_", s)`: each maximal whitespace run becomes one
underscore (used by `_sanitize_name`). -/
def collapseWsUnderscore : List Char → List Char
  | [] => []
  | [c] => if isPySpace c then ['_'] else [c]
  | c :: d :: rest =>
    if isPySpace c && isPySpace d then collapseWsUnderscore (d :: rest)
    else (if isPySpace c then '_' else c) :: collapseWsUnderscore (d :: rest)

/-- Helper for `str.split()`: accumulates the current word (reversed). -/
def splitWsAux : List Char → List Char → List (List Char)
  | [], cur => if cur = [] then [] else [cur.reverse]
  | c :: rest, cur =>
    if isPySpace c then
      if cur = [] then splitWsAux rest []
      else cur.reverse :: splitWsAux rest []
    else splitWsAux rest (c :: cur)

/-- Python `str.split()` (no argument): split on whitespace runs, no empty
parts. -/
def splitWs (l : List Char) : List (List Char) := splitWsAux l []

/-- `" ".join(words)` on character lists. -/
def joinSpace : List (List Char) → List Char
  | [] => []
  | [w] => w
  | w :: rest => w ++ ' ' :: joinSpace rest

/-! ### Decimal rendering of naturals

Used to embed the f-string `f"{stem}_{counter}{suffix}"` of the merge
conflict-resolution loop.  The fuel argument makes the digit recursion
structural; `n + 1` units of fuel always suffice since `n < 10 ^ (n + 1)`. -/

def digitCh (n : Nat) : Char := Char.ofNat (48 + n)

def natToDecAux : Nat → Nat → List Char
  | 0, _ => []
  | fuel + 1, n =>
    if n < 10 then [digitCh n]
    else natToDecAux fuel (n / 10) ++ [digitCh (n % 10)]

/-- Decimal digits of `n`, most significant first (models `str(n)`). -/
def natToDec (n : Nat) : List Char := natToDecAux (n + 1) n

/-- Value of a digit list, used only to prove `natToDec` injective. -/
def decVal (l : List Char) : Nat := l.foldl (fun a c => 10 * a + (c.toNat - 48)) 0

theorem decVal_append_digit (l : List Char) (c : Char) :
    decVal (l ++ [c]) = 10 * decVal l + (c.toNat - 48) := by
  simp [decVal, List.foldl_append]

theorem decVal_digitCh (n : Nat) (h : n < 10) : decVal [digitCh n] = n := by
  interval_cases n <;> rfl

theorem digitCh_toNat (n : Nat) (h : n < 10) : (digitCh n).toNat - 48 = n := by
  interval_cases n <;> rfl

theorem decVal_natToDecAux (fuel n : Nat) (h : n < 10 ^ fuel) :
    decVal (natToDecAux fuel n) = n := by
  induction fuel generalizing n with
  | zero =>
    simp only [pow_zero, Nat.lt_one_iff] at h
    simp [natToDecAux, decVal, h]
  | succ fuel ih =>
    by_cases h10 : n < 10
    · simp [natToDecAux, h10, decVal_digitCh n h10]
    · have hdiv : n / 10 < 10 ^ fuel := by
        have h1 : n < 10 * 10 ^ fuel := by
          rw [pow_succ] at h
          omega
        exact Nat.div_lt_of_lt_mul (by omega)
      rw [natToDecAux]
      simp only [h10, if_false]
      rw [decVal_append_digit, ih _ hdiv, digitCh_toNat _ (Nat.mod_lt _ (by norm_num))]
      omega

theorem decVal_natToDec (n : Nat) : decVal (natToDec n) = n := by
  have h : n < 10 ^ (n + 1) := by
    calc n < n + 1 := Nat.lt_succ_self n
    _ ≤ 10 ^ (n + 1) := Nat.le_of_lt (Nat.lt_pow_self (by norm_num) _)
  exact decVal_natToDecAux (n + 1) n h

theorem natToDec_injective : Function.Injective natToDec := by
  intro a b hab
  have := decVal_natToDec a
  rw [hab, decVal_natToDec] at this
  omega

/-! ### Path utilities

Relative paths inside a company folder are plain strings; `pathlib`'s
`parent`/`stem`/`suffix` split a path at its last `/` and the base name at
its last `.` (a dot at position 0 of the base name starts no extension,
matching `pathlib`, whose `suffix` of a leading-dot-only name is empty). -/

/-- `Path.name`: the part of a relative path after its last `/`. -/
def pathBase (l : List Char) : List Char :=
  (l.reverse.takeWhile (fun c => c ≠ '/')).reverse

/-- The `Path.parent` part of a relative path with its trailing `/`. -/
def pathDir (l : List Char) : List Char :=
  (l.reverse.dropWhile (fun c => c ≠ '/')).reverse

/-- Split a base name as `pathlib` does: the suffix is `name[i:]` for the
last dot position `i` when `0 < i < len(name) - 1`, otherwise empty (so
`.pdf` and `a.` have no suffix). -/
def baseSplit (base : List Char) : List Char × List Char :=
  let after := base.reverse.takeWhile (fun c => c ≠ '.')
  let pre := base.reverse.dropWhile (fun c => c ≠ '.')
  if 0 < after.length ∧ 2 ≤ pre.length then ((pre.drop 1).reverse, '.' :: after.reverse)
  else (base, [])

/-- `Path.stem` of a base name. -/
def baseStem (base : List Char) : List Char := (baseSplit base).1

/-- `Path.suffix` of a base name (with its dot). -/
def baseExt (base : List Char) : List Char := (baseSplit base).2

/-- The conflict-rename candidate `parent / f"{stem}_{counter}{suffix}"`
built from relative path `p` and counter `k`. -/
def renamedPath (p : List Char) (k : Nat) : List Char :=
  pathDir p ++ baseStem (pathBase p) ++ '_' :: natToDec k ++ baseExt (pathBase p)

theorem renamedPath_injective (p : List Char) : Function.Injective (renamedPath p) := by
  intro a b hab
  unfold renamedPath at hab
  simp only [List.append_assoc] at hab
  have h1 := List.append_cancel_left (List.append_cancel_left hab)
  have h2 : natToDec a ++ baseExt (pathBase p) = natToDec b ++ baseExt (pathBase p) :=
    List.cons_injective.eq_iff.mp h1
  exact natToDec_injective (List.append_cancel_right h2)

/-! ### `difflib.SequenceMatcher` (as called: `SequenceMatcher(None, a, b).ratio()`)

The embedding follows the stdlib source: `__chain_b` builds `b2j` (dropping
autojunk-popular elements when `len(b) >= 200`); `find_longest_match` runs
the row dynamic programming with the `j2len` dictionary and then the two
non-junk extension loops (with `isjunk = None` the junk set is empty, so the
two junk extension loops never move and are omitted); `get_matching_blocks`
recursively splits around each longest match, and `ratio` is twice the total
matched size over the total length (`1.0` when both are empty). -/

structure DMatch where
  i : Nat
  j : Nat
  size : Nat
deriving DecidableEq

/-- Ascending positions of `c` in `b`, with the autojunk popularity cutoff of
`__chain_b` (`len(b) >= 200` and more than `len(b) // 100 + 1` occurrences). -/
def b2j (b : List Char) (c : Char) : List Nat :=
  let pos := (List.range b.length).filter (fun j => b.getD j ' ' = c)
  if b.length ≥ 200 ∧ pos.length > b.length / 100 + 1 then [] else pos

/-- Inner step of the `find_longest_match` dynamic programming for row `i`:
`j2len` maps a column to the length of the common run ending there in the
previous row (`j2len.get(j-1, 0)` is `0` at column `0`). -/
def flmStep (i : Nat) (j2len : Nat → Nat) (acc2 : DMatch × (Nat → Nat)) (j : Nat) :
    DMatch × (Nat → Nat) :=
  let k := (if j = 0 then 0 else j2len (j - 1)) + 1
  let best := if acc2.1.size < k then (⟨i + 1 - k, j + 1 - k, k⟩ : DMatch) else acc2.1
  (best, fun x => if x = j then k else acc2.2 x)

/-- One row of the dynamic programming: visit the in-window positions of
`a[i]` in `b`; the new row dictionary starts empty. -/
def flmRow (a b : List Char) (blo bhi : Nat) (acc : DMatch × (Nat → Nat)) (i : Nat) :
    DMatch × (Nat → Nat) :=
  let js := (b2j b (a.getD i ' ')).filter (fun j => blo ≤ j ∧ j < bhi)
  js.foldl (flmStep i acc.2) (acc.1, fun _ => 0)

/-- The dynamic-programming part of `find_longest_match`. -/
def flmDP (a b : List Char) (alo ahi blo bhi : Nat) : DMatch :=
  ((List.range' alo (ahi - alo)).foldl (flmRow a b blo bhi)
    (⟨alo, blo, 0⟩, fun _ => 0)).1

/-- First extension loop: grow the match backwards over equal characters. -/
def extendBack (a b : List Char) (alo blo : Nat) : Nat → DMatch → DMatch
  | 0, m => m
  | fuel + 1, m =>
    match a[m.i - 1]?, b[m.j - 1]? with
    | some x, some y =>
      if alo < m.i ∧ blo < m.j ∧ x = y then
        extendBack a b alo blo fuel ⟨m.i - 1, m.j - 1, m.size + 1⟩
      else m
    | _, _ => m

/-- Second extension loop: grow the match forwards over equal characters. -/
def extendFwd (a b : List Char) (ahi bhi : Nat) : Nat → DMatch → DMatch
  | 0, m => m
  | fuel + 1, m =>
    match a[m.i + m.size]?, b[m.j + m.size]? with
    | some x, some y =>
      if m.i + m.size < ahi ∧ m.j + m.size < bhi ∧ x = y then
        extendFwd a b ahi bhi fuel ⟨m.i, m.j, m.size + 1⟩
      else m
    | _, _ => m

/-- `find_longest_match(alo, ahi, blo, bhi)` with `isjunk = None`. -/
def findLongestMatch (a b : List Char) (alo ahi blo bhi : Nat) : DMatch :=
  let m0 := flmDP a b alo ahi blo bhi
  let m1 := extendBack a b alo blo m0.i m0
  extendFwd a b ahi bhi (ahi - (m1.i + m1.size)) m1

/-- Window bounds every match handed around by the matcher satisfies. -/
def MB (alo ahi blo bhi : Nat) (m : DMatch) : Prop :=
  alo ≤ m.i ∧ m.i + m.size ≤ ahi ∧ blo ≤ m.j ∧ m.j + m.size ≤ bhi

/-- Bounds of the `j2len` row dictionary before processing row `r`. -/
def JB (alo blo bhi r : Nat) (f : Nat → Nat) : Prop :=
  ∀ j, 0 < f j → blo ≤ j ∧ j < bhi ∧ f j + alo ≤ r ∧ f j + blo ≤ j + 1

theorem flmStep_inv (alo ahi blo bhi i : Nat) (j2len : Nat → Nat)
    (hJ : JB alo blo bhi i j2len) (hi1 : alo ≤ i) (hi2 : i < ahi) :
    ∀ (js : List Nat) (acc2 : DMatch × (Nat → Nat)), (∀ j ∈ js, blo ≤ j ∧ j < bhi) →
      MB alo ahi blo bhi acc2.1 → JB alo blo bhi (i + 1) acc2.2 →
      MB alo ahi blo bhi (js.foldl (flmStep i j2len) acc2).1 ∧
        JB alo blo bhi (i + 1) (js.foldl (flmStep i j2len) acc2).2 := by
  intro js
  induction js with
  | nil =>
    intro acc2 _ hM hJ2
    exact ⟨hM, hJ2⟩
  | cons j t ih =>
    intro acc2 hmem hM hJ2
    have hjb := hmem j (by simp)
    rw [List.foldl_cons]
    have hk : (if j = 0 then 0 else j2len (j - 1)) + 1 + alo ≤ i + 1 ∧
        (if j = 0 then 0 else j2len (j - 1)) + 1 + blo ≤ j + 1 := by
      by_cases hj0 : j = 0
      · simp only [hj0, if_true]
        omega
      · simp only [hj0, if_false]
        by_cases hv : 0 < j2len (j - 1)
        · have := hJ (j - 1) hv
          omega
        · omega
    refine ih _ (fun x hx => hmem x (by simp [hx])) ?_ ?_
    · show MB alo ahi blo bhi (flmStep i j2len acc2 j).1
      unfold flmStep
      set k := (if j = 0 then 0 else j2len (j - 1)) + 1 with hkdef
      by_cases hlt : acc2.1.size < k
      · simp only [hlt, if_true]
        refine ⟨?_, ?_, ?_, ?_⟩
        · show alo ≤ i + 1 - k
          omega
        · show i + 1 - k + k ≤ ahi
          omega
        · show blo ≤ j + 1 - k
          omega
        · show j + 1 - k + k ≤ bhi
          omega
      · simpa [hlt] using hM
    · show JB alo blo bhi (i + 1) (flmStep i j2len acc2 j).2
      intro x hx
      have hval : (flmStep i j2len acc2 j).2 x =
          if x = j then (if j = 0 then 0 else j2len (j - 1)) + 1 else acc2.2 x := rfl
      rw [hval] at hx ⊢
      by_cases hxj : x = j
      · subst hxj
        rw [if_pos rfl] at hx ⊢
        exact ⟨hjb.1, hjb.2, by omega, by omega⟩
      · simp only [hxj, if_false] at hx ⊢
        exact hJ2 x hx

theorem flmRow_inv (a b : List Char) (alo ahi blo bhi i : Nat)
    (acc : DMatch × (Nat → Nat))
    (hi1 : alo ≤ i) (hi2 : i < ahi)
    (hM : MB alo ahi blo bhi acc.1) (hJ : JB alo blo bhi i acc.2) :
    MB alo ahi blo bhi (flmRow a b blo bhi acc i).1 ∧
      JB alo blo bhi (i + 1) (flmRow a b blo bhi acc i).2 := by
  unfold flmRow
  refine flmStep_inv alo ahi blo bhi i acc.2 hJ hi1 hi2 _ (acc.1, fun _ => 0)
    ?_ hM ?_
  · intro j hj
    have := List.of_mem_filter hj
    simpa using this
  · intro x hx
    simp at hx

theorem flmDP_MB (a b : List Char) (alo ahi blo bhi : Nat)
    (ha : alo ≤ ahi) (hb : blo ≤ bhi) :
    MB alo ahi blo bhi (flmDP a b alo ahi blo bhi) := by
  unfold flmDP
  suffices h : ∀ cnt start (acc : DMatch × (Nat → Nat)), alo ≤ start → start + cnt ≤ ahi →
      MB alo ahi blo bhi acc.1 → JB alo blo bhi start acc.2 →
      MB alo ahi blo bhi ((List.range' start cnt).foldl (flmRow a b blo bhi) acc).1 by
    refine h (ahi - alo) alo _ le_rfl (by omega) ?_ ?_
    · exact ⟨le_rfl, by show alo + 0 ≤ ahi; omega, le_rfl, by show blo + 0 ≤ bhi; omega⟩
    · intro j hj
      simp at hj
  intro cnt
  induction cnt with
  | zero =>
    intro start acc _ _ hM _
    simpa using hM
  | succ n ih =>
    intro start acc hs hcnt hM hJ
    rw [List.range'_succ, List.foldl_cons]
    have hrow := flmRow_inv a b alo ahi blo bhi start acc hs (by omega) hM hJ
    exact ih (start + 1) _ (by omega) (by omega) hrow.1 hrow.2

theorem extendBack_MB (a b : List Char) (alo ahi blo bhi : Nat) (fuel : Nat) (m : DMatch)
    (h : MB alo ahi blo bhi m) : MB alo ahi blo bhi (extendBack a b alo blo fuel m) := by
  induction fuel generalizing m with
  | zero => simpa [extendBack] using h
  | succ fuel ih =>
    rw [extendBack]
    rcases h with ⟨h1, h2, h3, h4⟩
    cases hx : a[m.i - 1]? with
    | none => exact ⟨h1, h2, h3, h4⟩
    | some x =>
      cases hy : b[m.j - 1]? with
      | none => exact ⟨h1, h2, h3, h4⟩
      | some y =>
        by_cases hc : alo < m.i ∧ blo < m.j ∧ x = y
        · simp only [hc, if_true]
          refine ih _ ⟨?_, ?_, ?_, ?_⟩
          · show alo ≤ m.i - 1
            omega
          · show m.i - 1 + (m.size + 1) ≤ ahi
            omega
          · show blo ≤ m.j - 1
            omega
          · show m.j - 1 + (m.size + 1) ≤ bhi
            omega
        · simp only [hc, if_false]
          exact ⟨h1, h2, h3, h4⟩

theorem extendFwd_MB (a b : List Char) (alo ahi blo bhi : Nat) (fuel : Nat) (m : DMatch)
    (h : MB alo ahi blo bhi m) : MB alo ahi blo bhi (extendFwd a b ahi bhi fuel m) := by
  induction fuel generalizing m with
  | zero => simpa [extendFwd] using h
  | succ fuel ih =>
    rw [extendFwd]
    rcases h with ⟨h1, h2, h3, h4⟩
    cases hx : a[m.i + m.size]? with
    | none => exact ⟨h1, h2, h3, h4⟩
    | some x =>
      cases hy : b[m.j + m.size]? with
      | none => exact ⟨h1, h2, h3, h4⟩
      | some y =>
        by_cases hc : m.i + m.size < ahi ∧ m.j + m.size < bhi ∧ x = y
        · simp only [hc, if_true]
          refine ih _ ⟨?_, ?_, ?_, ?_⟩
          · show alo ≤ m.i
            omega
          · show m.i + (m.size + 1) ≤ ahi
            omega
          · show blo ≤ m.j
            omega
          · show m.j + (m.size + 1) ≤ bhi
            omega
        · simp only [hc, if_false]
          exact ⟨h1, h2, h3, h4⟩

theorem findLongestMatch_MB (a b : List Char) (alo ahi blo bhi : Nat)
    (ha : alo ≤ ahi) (hb : blo ≤ bhi) :
    MB alo ahi blo bhi (findLongestMatch a b alo ahi blo bhi) := by
  unfold findLongestMatch
  exact extendFwd_MB a b alo ahi blo bhi _ _
    (extendBack_MB a b alo ahi blo bhi _ _ (flmDP_MB a b alo ahi blo bhi ha hb))

/-- The recursive Ratcliff/Obershelp decomposition of `get_matching_blocks`:
total number of matched characters.  The fuel starts at
`a.length + b.length + 1`, which always suffices because the combined window
size shrinks at every recursive call. -/
def matchTotalAux (a b : List Char) : Nat → Nat → Nat → Nat → Nat → Nat
  | 0, _, _, _, _ => 0
  | fuel + 1, alo, ahi, blo, bhi =>
    let m := findLongestMatch a b alo ahi blo bhi
    if m.size = 0 then 0
    else
      matchTotalAux a b fuel alo m.i blo m.j + m.size +
        matchTotalAux a b fuel (m.i + m.size) ahi (m.j + m.size) bhi

def matchTotal (a b : List Char) : Nat :=
  matchTotalAux a b (a.length + b.length + 1) 0 a.length 0 b.length

theorem matchTotalAux_le (a b : List Char) (fuel : Nat) :
    ∀ alo ahi blo bhi, alo ≤ ahi → blo ≤ bhi →
      matchTotalAux a b fuel alo ahi blo bhi ≤ min (ahi - alo) (bhi - blo) := by
  induction fuel with
  | zero => intro alo ahi blo bhi _ _; simp [matchTotalAux]
  | succ fuel ih =>
    intro alo ahi blo bhi ha hb
    rw [matchTotalAux]
    set m := findLongestMatch a b alo ahi blo bhi with hm
    by_cases hz : m.size = 0
    · simp [hz]
    · simp only [hz, if_false]
      have hMB := findLongestMatch_MB a b alo ahi blo bhi ha hb
      rw [← hm] at hMB
      rcases hMB with ⟨h1, h2, h3, h4⟩
      have hl := ih alo m.i blo m.j (by omega) (by omega)
      have hr := ih (m.i + m.size) ahi (m.j + m.size) bhi (by omega) (by omega)
      omega

theorem matchTotal_le (a b : List Char) :
    matchTotal a b ≤ min a.length b.length := by
  have := matchTotalAux_le a b (a.length + b.length + 1) 0 a.length 0 b.length
    (by omega) (by omega)
  simpa using this

/-- `SequenceMatcher(None, name1, name2).ratio()`: twice the matched total
over the combined length, `1.0` for two empty sequences. -/
def seqRatio (s1 s2 : String) : ℚ :=
  let total := s1.length + s2.length
  if total = 0 then 1 else (2 * matchTotal s1.data s2.data : ℚ) / total

theorem seqRatio_nonneg (s1 s2 : String) : 0 ≤ seqRatio s1 s2 := by
  unfold seqRatio
  by_cases h : s1.length + s2.length = 0
  · simp [h]
  · simp only [h, if_false]
    positivity

theorem seqRatio_le_one (s1 s2 : String) : seqRatio s1 s2 ≤ 1 := by
  unfold seqRatio
  by_cases h : s1.length + s2.length = 0
  · simp [h]
  · simp only [h, if_false]
    rw [div_le_one (by positivity)]
    have hle := matchTotal_le s1.data s2.data
    have h1 : s1.length = s1.data.length := rfl
    have h2 : s2.length = s2.data.length := rfl
    rw [h1, h2]
    have hq : (matchTotal s1.data s2.data : ℚ) ≤
        min (s1.data.length : ℚ) (s2.data.length : ℚ) := by
      exact_mod_cast hle
    have hmin : (min s1.data.length s2.data.length : ℚ) ≤ (s1.data.length + s2.data.length) / 2 := by
      rcases le_total (s1.data.length : ℚ) (s2.data.length : ℚ) with hc | hc
      · rw [min_eq_left hc]
        linarith
      · rw [min_eq_right hc]
        linarith
    push_cast
    linarith

/-! ### `CompanyNormalizer`: pure string transforms -/

/-- `common_suffixes` of `CompanyNormalizer.__init__` (a Python set; order is
irrelevant because it is only used for membership tests). -/
def commonSuffixes : List String :=
  ["inc", "inc.", "incorporated", "corp", "corp.", "corporation", "llc",
   "l.l.c.", "ltd", "ltd.", "limited", "co", "co.", "company", "bank",
   "credit union", "federal credit union"]

/-- `common_prefixes` of `CompanyNormalizer.__init__`. -/
def commonArticles : List String := ["the", "a", "an"]

/-- The trailing while-pop loop of `_normalize_name`
(`while words and words[-1] in suffixes: words.pop()`). -/
def popTrailing (ws : List String) : List String :=
  ((ws.reverse.dropWhile (fun w => w ∈ commonSuffixes)).reverse)

/-- The leading while-pop loop of `_normalize_name`
(`while words and words[0] in prefixes: words.pop(0)`). -/
def popLeading (ws : List String) : List String :=
  ws.dropWhile (fun w => w ∈ commonArticles)

/-- `CompanyNormalizer._normalize_name`: lowercase and strip, replace
punctuation by spaces, collapse whitespace and strip again, split into
words, pop leading articles and trailing legal suffixes, rejoin. -/
def normalizeName (name : String) : String :=
  if name = "" then ""
  else
    let n1 := pyStrip (name.data.map toLowerCh)
    let n2 := punctToSpace n1
    let n3 := pyStrip (collapseSpaces n2)
    let words := (splitWs n3).map String.mk
    String.mk (joinSpace (((popTrailing (popLeading words))).map String.data))

/-- Word set of an already-normalized name (`set(name.split())`). -/
def wordsOf (name : String) : Finset String :=
  ((splitWs name.data).map String.mk).toFinset

/-- `CompanyNormalizer._calculate_similarity` (floats modelled exactly as
rationals: `0.6 = 3/5`, `0.3 = 3/10`, `0.2 = 1/5`, `0.8 = 4/5`). -/
def calculateSimilarity (name1 name2 : String) : ℚ :=
  if name1 = "" ∨ name2 = "" then 0
  else
    let basic := seqRatio name1 name2
    let words1 := wordsOf name1
    let words2 := wordsOf name2
    if words1 ≠ ∅ ∧ words2 ≠ ∅ then
      let overlap := ((words1 ∩ words2).card : ℚ) / ((words1 ∪ words2).card : ℚ)
      let bonus := if 4 / 5 < overlap then (1 / 5 : ℚ) else 0
      min 1 (3 / 5 * basic + 3 / 10 * overlap + bonus)
    else basic

/-- Characters `re.sub` replaces in `_sanitize_name`. -/
def isInvalidCh (c : Char) : Bool :=
  c = '<' || c = '>' || c = ':' || c = '\x22' || c = '/' || c = '\\' ||
    c = '|' || c = '?' || c = '*'

/-- `CompanyNormalizer._sanitize_name`: replace invalid filesystem
characters by underscores, collapse whitespace runs to single underscores,
strip underscores and whitespace, fall back to `"Unknown"`. -/
def sanitizeName (name : String) : String :=
  if name = "" then "Unknown"
  else
    let n1 := name.data.map (fun c => if isInvalidCh c then '_' else c)
    let n2 := collapseWsUnderscore n1
    let n3 := pyStrip (stripUnderscores n2)
    if n3 = [] then "Unknown" else String.mk n3

/-- Delimiters captured by `re.split(r"(\s+|[-_&/])", name)` in
`_proper_case`: a whitespace run or one of the four single characters. -/
def isDelimCh (c : Char) : Bool :=
  isPySpace c || c = '-' || c = '_' || c = '&' || c = '/'

/-- `re.split(r"(\s+|[-_&/])", name)`: alternating text parts (possibly
empty) and captured delimiter parts.  The fuel argument makes the recursion
structural; each step consumes at least the delimiter character. -/
def splitPartsAux : Nat → List Char → List (List Char)
  | 0, l => [l]
  | fuel + 1, l =>
    let text := l.takeWhile (fun c => ¬ isDelimCh c)
    match l.drop text.length with
    | [] => [text]
    | c :: rest =>
      if isPySpace c then
        let sp := (c :: rest).takeWhile isPySpace
        text :: sp :: splitPartsAux fuel ((c :: rest).drop sp.length)
      else text :: [c] :: splitPartsAux fuel rest

def splitParts (l : List Char) : List (List Char) := splitPartsAux (l.length + 1) l

/-- Python `str.capitalize`: first character upper-cased, rest lower-cased. -/
def capitalizeL : List Char → List Char
  | [] => []
  | c :: rest => toUpperCh c :: rest.map toLowerCh

/-- Stopwords kept lower-case by `_proper_case`. -/
def properStopwords : List String := ["of", "and", "the", "for", "in", "on", "at", "by"]

/-- Acronyms kept upper-case by `_proper_case`. -/
def properAcronyms : List String := ["LLC", "INC", "CORP", "LTD", "USA", "US", "UK"]

/-- Transformation `_proper_case` applies to one captured part. -/
def properPart (part : List Char) : List Char :=
  if pyStrip part ≠ [] then
    if String.mk (part.map toLowerCh) ∈ properStopwords then part.map toLowerCh
    else if String.mk (part.map toUpperCh) ∈ properAcronyms then part.map toUpperCh
    else capitalizeL part
  else part

/-- `CompanyNormalizer._proper_case`. -/
def properCase (name : String) : String :=
  if name = "" then name
  else String.mk (((splitParts name.data).map properPart).flatten)

/-- `CompanyNormalizer._create_canonical_name`: strip, then proper-case. -/
def createCanonicalName (name : String) : String :=
  properCase (String.mk (pyStrip name.data))

/-! ### `CompanyNormalizer`: registry state -/

/-- `CompanyMapping`; `variations` models the Python set as a duplicate-free
list in insertion order (set iteration order never influences the results
proved below). -/
structure CompanyMapping where
  canonical_name : String
  variations : List String
  folder_name : String
deriving DecidableEq

/-- Python set `add`. -/
def setAdd (l : List String) (s : String) : List String :=
  if s ∈ l then l else l ++ [s]

/-- `CompanyMapping(canonical_name=c)` followed by `__post_init__`
(the folder name defaults to `_sanitize_name(c)`). -/
def mkMapping (canonical : String) : CompanyMapping :=
  ⟨canonical, [], sanitizeName canonical⟩

/-- Registry state: `company_mappings` (an insertion-ordered dict keyed by
the lower-cased canonical name, the key of every insertion) and the
`normalized_to_canonical` reverse index. -/
structure RegState where
  mappings : List CompanyMapping
  normIndex : List (String × String)
deriving DecidableEq

/-- The dict key under which a mapping is stored. -/
def mapKey (m : CompanyMapping) : String := lowerStr m.canonical_name

/-- Replace the first element satisfying `p` (dict update at an existing
key). -/
def updateFirst (p : α → Bool) (f : α → α) : List α → List α
  | [] => []
  | x :: xs => if p x then f x :: xs else x :: updateFirst p f xs

/-- `dict` assignment `d[key] = m` for `key = mapKey m`: overwrite in place
if the key exists, else append. -/
def insertMapping (st : List CompanyMapping) (m : CompanyMapping) : List CompanyMapping :=
  if st.any (fun x => mapKey x = mapKey m) then
    updateFirst (fun x => mapKey x = mapKey m) (fun _ => m) st
  else st ++ [m]

/-- `dict` assignment on the `normalized_to_canonical` index. -/
def insertIndex (ix : List (String × String)) (k v : String) : List (String × String) :=
  if ix.any (fun x => x.1 = k) then
    updateFirst (fun x => x.1 = k) (fun _ => (k, v)) ix
  else ix ++ [(k, v)]

/-- `CompanyNormalizer._find_exact_match`: dict-key containment first, then
a scan of every mapping's variations (all case-insensitive). -/
def findExactMatch (st : List CompanyMapping) (name : String) : Option String :=
  match st.find? (fun m => mapKey m = lowerStr name) with
  | some m => some m.canonical_name
  | none =>
    match st.find? (fun m => m.variations.any (fun v => lowerStr v = lowerStr name)) with
    | some m => some m.canonical_name
    | none => none

/-- Inner loop of `_find_fuzzy_match` for one mapping: fold the running
`(best_score, best_match)` pair over the mapping's canonical name and then
its variations; an update needs `score > best_score` and
`score >= similarity_threshold`. -/
def fuzzyInner (th : ℚ) (ni : String) (m : CompanyMapping)
    (acc : ℚ × Option String) : ℚ × Option String :=
  (m.canonical_name :: m.variations).foldl (fun acc2 v =>
    let score := calculateSimilarity ni (normalizeName v)
    if acc2.1 < score ∧ th ≤ score then (score, some m.canonical_name) else acc2) acc

/-- `CompanyNormalizer._find_fuzzy_match`. -/
def findFuzzyMatch (th : ℚ) (st : List CompanyMapping) (name : String) : Option String :=
  let ni := normalizeName name
  (st.foldl (fun acc m => fuzzyInner th ni m acc) ((0 : ℚ), (none : Option String))).2

/-- `CompanyNormalizer._add_new_company`. -/
def addNewCompany (st : RegState) (canonical original : String) : RegState :=
  let mapping := { mkMapping canonical with
    variations := setAdd (setAdd (mkMapping canonical).variations original) canonical }
  { mappings := insertMapping st.mappings mapping,
    normIndex := insertIndex st.normIndex (normalizeName canonical) canonical }

/-- The variation-recording update of the fuzzy-match branch:
`company_mappings[canonical.lower()].variations.add(raw_name)`. -/
def addVariationState (st : RegState) (canonical name : String) : RegState :=
  ⟨updateFirst (fun x => mapKey x = lowerStr canonical)
    (fun x => { x with variations := setAdd x.variations name }) st.mappings,
   st.normIndex⟩

/-- The raw names short-circuited to `"Unknown"`. -/
def unknownStrings : List String := ["unknown", "null", "none"]

/-- `CompanyNormalizer.normalize_company_name`, returning the canonical name
together with the registry state after the call. -/
def normalizeCompanyName (th : ℚ) (st : RegState) (name : String) : String × RegState :=
  if name = "" ∨ lowerStr name ∈ unknownStrings then ("Unknown", st)
  else
    match findExactMatch st.mappings name with
    | some c => (c, st)
    | none =>
      match findFuzzyMatch th st.mappings name with
      | some c => (c, addVariationState st c name)
      | none =>
        let c := createCanonicalName name
        (c, addNewCompany st c name)

/-- `CompanyNormalizer.get_folder_name`. -/
def getFolderName (st : RegState) (canonical : String) : String :=
  match st.mappings.find? (fun m => mapKey m = lowerStr canonical) with
  | some m => m.folder_name
  | none => sanitizeName canonical

/-! ### Duplicate detection and folder merging

The output directory is modelled as an association list from folder name to
the list of relative paths of the files inside the folder (in the
traversal order of `rglob("*")`); directories are implicit in the path
strings.  `folder.rglob("*.pdf")` counts the files whose base name matches
`*.pdf`, i.e. ends with the four characters `.pdf`. -/

/-- `*.pdf` match seen from the end: the reversed final four characters. -/
def pdfRev : List Char := ['f', 'd', 'p', '.']

/-- A file matched by `rglob("*.pdf")`: its base name ends in `.pdf`. -/
def isPdfPath (p : String) : Bool :=
  (pathBase p.data).reverse.take 4 = pdfRev

/-- The conflict-rename candidate as a string. -/
def renamedPathS (p : String) (k : Nat) : String := String.mk (renamedPath p.data k)

/-- The `while target_path.exists()` counter search of
`_merge_company_folders`, starting at `counter = 1`; `existing.length + 1`
units of fuel always suffice (pigeonhole, the candidates being pairwise
distinct). -/
def freshIdxAux (existing : List String) (p : String) : Nat → Nat → Nat
  | 0, k => k
  | fuel + 1, k =>
    if renamedPathS p k ∈ existing then freshIdxAux existing p fuel (k + 1) else k

def freshIdx (existing : List String) (p : String) : Nat :=
  freshIdxAux existing p (existing.length + 1) 1

/-- Target chosen for one moved file: the original relative path, renamed
with the first free `_k` counter when it already exists in the kept
folder. -/
def resolveTarget (existing : List String) (p : String) : String :=
  if p ∈ existing then renamedPathS p (freshIdx existing p) else p

/-- `shutil.move` of one file of the merge folder into the kept folder. -/
def moveOne (keepFiles : List String) (p : String) : List String :=
  keepFiles ++ [resolveTarget keepFiles p]

/-- The `for item in merge_folder.rglob("*")` move loop. -/
def mergeMove (keepFiles mergeFiles : List String) : List String :=
  mergeFiles.foldl moveOne keepFiles

/-- The output directory: folder name to contained files. -/
structure FS where
  folders : List (String × List String)
deriving DecidableEq

def lookupFolder (fs : FS) (name : String) : Option (List String) :=
  (fs.folders.find? (fun x => x.1 = name)).map (·.2)

/-- `sum(1 for _ in folder.rglob("*.pdf"))`. -/
def countPdfIn (files : List String) : Nat := (files.filter isPdfPath).length

/-- Total PDF count across every folder of the output directory. -/
def totalPdf (fs : FS) : Nat := (fs.folders.map (fun x => countPdfIn x.2)).sum

/-- Total file count across every folder of the output directory. -/
def totalFiles (fs : FS) : Nat := (fs.folders.map (fun x => x.2.length)).sum

/-- The keep/merge decision of `_merge_company_folders`: keep the first
folder when it has strictly more PDFs, or on a tie when the first canonical
name is at most as long as the second. -/
def keepFirst (count1 count2 : Nat) (name1 name2 : String) : Bool :=
  count2 < count1 ∨ (count1 = count2 ∧ name1.length ≤ name2.length)

/-- `CompanyNormalizer._merge_company_folders`: returns the new output
directory and whether the merge ran (`False` when a folder is missing).
Moving the files updates the kept folder in place; removing the emptied
merge folder drops its entry. -/
def mergeCompanyFolders (fs : FS) (c1 c2 : CompanyMapping) : FS × Bool :=
  match lookupFolder fs c1.folder_name, lookupFolder fs c2.folder_name with
  | some files1, some files2 =>
    let count1 := countPdfIn files1
    let count2 := countPdfIn files2
    let first := keepFirst count1 count2 c1.canonical_name c2.canonical_name
    let keepName := if first then c1.folder_name else c2.folder_name
    let mergeName := if first then c2.folder_name else c1.folder_name
    let keepFiles := if first then files1 else files2
    let mergeFiles := if first then files2 else files1
    let newKeep := mergeMove keepFiles mergeFiles
    (⟨(fs.folders.map (fun x => if x.1 = keepName then (x.1, newKeep) else x)).filter
        (fun x => x.1 ≠ mergeName)⟩, true)
  | _, _ => (fs, false)

/-- The duplicate scan of `_auto_merge_duplicates`: for every ordered pair
of registered companies (first registered first), record the pair together
with the similarity of their normalized canonical names whenever that
similarity is strictly above `0.85 = 17/20`. -/
def findDuplicates : List CompanyMapping → List (CompanyMapping × CompanyMapping × ℚ)
  | [] => []
  | c :: rest =>
    (rest.filterMap (fun c2 =>
      let s := calculateSimilarity (normalizeName c.canonical_name)
        (normalizeName c2.canonical_name)
      if 17 / 20 < s then some (c, c2, s) else none)) ++ findDuplicates rest

/-- All ordered pairs of a list, earlier element first. -/
def orderedPairs : List α → List (α × α)
  | [] => []
  | x :: xs => (xs.map (fun y => (x, y))) ++ orderedPairs xs

/-! ### Helper lemmas about the string transforms -/

theorem mem_collapseWsUnderscore {c : Char} :
    ∀ {l : List Char}, c ∈ collapseWsUnderscore l → c = '_' ∨ c ∈ l := by
  intro l
  induction l with
  | nil => simp [collapseWsUnderscore]
  | cons a rest ih =>
    cases rest with
    | nil =>
      by_cases hs : isPySpace a
      · simp [collapseWsUnderscore, hs]
        intro h
        exact Or.inl h
      · simp [collapseWsUnderscore, hs]
        intro h
        exact Or.inr h
    | cons d rest' =>
      intro hmem
      rw [collapseWsUnderscore] at hmem
      by_cases h1 : isPySpace a && isPySpace d
      · rw [if_pos h1] at hmem
        rcases ih hmem with h | h
        · exact Or.inl h
        · exact Or.inr (by simp [h])
      · rw [if_neg h1] at hmem
        rcases List.mem_cons.mp hmem with h | h
        · by_cases hs : isPySpace a
          · simp [hs] at h
            exact Or.inl h
          · simp [hs] at h
            exact Or.inr (by simp [h])
        · rcases ih h with h2 | h2
          · exact Or.inl h2
          · exact Or.inr (by simp [h2])

theorem mem_pyStrip {c : Char} {l : List Char} (h : c ∈ pyStrip l) : c ∈ l := by
  unfold pyStrip at h
  rw [List.mem_reverse] at h
  have h1 := (List.dropWhile_sublist _).subset h
  rw [List.mem_reverse] at h1
  exact (List.dropWhile_sublist _).subset h1

theorem mem_stripUnderscores {c : Char} {l : List Char} (h : c ∈ stripUnderscores l) :
    c ∈ l := by
  unfold stripUnderscores at h
  rw [List.mem_reverse] at h
  have h1 := (List.dropWhile_sublist _).subset h
  rw [List.mem_reverse] at h1
  exact (List.dropWhile_sublist _).subset h1

/-! ### Claim C8 -/

/-- Claim C8: `normalize_company_name` and `get_folder_name` are total Lean
functions of their string argument (they are defined for every input and,
being shallow embeddings of exception-free code paths, never raise); for
every raw name that is empty or case-insensitively one of `unknown`,
`null`, `none` the normalizer returns `"Unknown"` and leaves the state
unchanged, and for every canonical name whose lower-cased form is not a key
of the registry, `get_folder_name` falls back to `_sanitize_name`. -/
theorem C8_total_unknown_and_fallback :
    (∀ (th : ℚ) (st : RegState) (name : String),
      (name = "" ∨ lowerStr name ∈ unknownStrings) →
        normalizeCompanyName th st name = ("Unknown", st)) ∧
    (∀ (st : RegState) (canonical : String),
      st.mappings.find? (fun m => mapKey m = lowerStr canonical) = none →
        getFolderName st canonical = sanitizeName canonical) := by
  constructor
  · intro th st name h
    unfold normalizeCompanyName
    rw [if_pos h]
  · intro st canonical h
    unfold getFolderName
    rw [h]

/-- Witness for C8 at concrete inputs: `"NULL"` resolves to `"Unknown"`
with an untouched empty registry, and an unregistered name containing a
filesystem-invalid character falls back to its sanitized form. -/
theorem C8_total_unknown_and_fallback_witness :
    normalizeCompanyName (4 / 5) ⟨[], []⟩ "NULL" = ("Unknown", ⟨[], []⟩) ∧
      getFolderName ⟨[], []⟩ "A?B" = sanitizeName "A?B" := by
  constructor
  · exact C8_total_unknown_and_fallback.1 (4 / 5) ⟨[], []⟩ "NULL" (by decide)
  · exact C8_total_unknown_and_fallback.2 ⟨[], []⟩ "A?B" (by decide)

/-! ### Claim C9 -/

/-- Claim C9: `_sanitize_name` is a pure deterministic function (in this
embedding a Lean function, so the same input always yields the same
output); its output never contains any of the nine invalid filesystem
characters, and whenever the replace-collapse-trim pipeline yields the
empty string the function returns `"Unknown"` (as it also does for empty
input). -/
theorem C9_sanitize_safe (name : String) :
    (∀ c ∈ (sanitizeName name).data, isInvalidCh c = false) ∧
    sanitizeName name ≠ "" ∧
    (pyStrip (stripUnderscores (collapseWsUnderscore
        (name.data.map (fun c => if isInvalidCh c then '_' else c)))) = [] →
      sanitizeName name = "Unknown") := by
  by_cases h0 : name = ""
  · subst h0
    exact ⟨by decide, by decide, fun _ => rfl⟩
  · unfold sanitizeName
    rw [if_neg h0]
    by_cases h3 : pyStrip (stripUnderscores (collapseWsUnderscore
        (name.data.map (fun c => if isInvalidCh c then '_' else c)))) = []
    · rw [if_pos h3]
      exact ⟨by decide, by decide, fun _ => rfl⟩
    · rw [if_neg h3]
      refine ⟨?_, ?_, fun h => absurd h h3⟩
      · intro c hc
        have hc1 : c ∈ pyStrip (stripUnderscores (collapseWsUnderscore
            (name.data.map (fun c => if isInvalidCh c then '_' else c)))) := hc
        have hc2 := mem_stripUnderscores (mem_pyStrip hc1)
        rcases mem_collapseWsUnderscore hc2 with h | h
        · subst h
          decide
        · rcases List.mem_map.mp h with ⟨a, _, ha⟩
          by_cases hinv : isInvalidCh a
          · rw [if_pos hinv] at ha
            subst ha
            decide
          · rw [if_neg hinv] at ha
            subst ha
            simpa using hinv
      · intro hcontra
        have : (String.mk (pyStrip (stripUnderscores (collapseWsUnderscore
            (name.data.map (fun c => if isInvalidCh c then '_' else c)))))).data = [] := by
          rw [hcontra]
        exact h3 this

/-- Witness for C9: the membership and emptiness hypotheses discharged at a
concrete input whose pipeline result is empty. -/
theorem C9_sanitize_safe_witness :
    sanitizeName "???" = "Unknown" ∧ isInvalidCh 'U' = false := by
  constructor
  · exact (C9_sanitize_safe "???").2.2 (by decide)
  · exact (C9_sanitize_safe "???").1 'U' (by decide)

/-! ### Claim C1: helper lemmas on whitespace splitting -/

theorem splitWsAux_space_all {s : List Char} (hs : ∀ c ∈ s, isPySpace c = true) :
    ∀ cur, splitWsAux s cur = if cur = [] then [] else [cur.reverse] := by
  induction s with
  | nil => intro cur; rfl
  | cons c t ih =>
    intro cur
    have hc := hs c (by simp)
    rw [splitWsAux, if_pos hc]
    by_cases hcur : cur = []
    · rw [if_pos hcur, ih (fun x hx => hs x (by simp [hx])) [], if_pos rfl, if_pos hcur]
    · rw [if_neg hcur, ih (fun x hx => hs x (by simp [hx])) [], if_pos rfl, if_neg hcur]

theorem splitWsAux_append_space {s : List Char} (hs : ∀ c ∈ s, isPySpace c = true) :
    ∀ t cur, splitWsAux (t ++ s) cur = splitWsAux t cur := by
  intro t
  induction t with
  | nil =>
    intro cur
    rw [List.nil_append, splitWsAux_space_all hs cur]
    rfl
  | cons c t ih =>
    intro cur
    rw [List.cons_append, splitWsAux, splitWsAux]
    by_cases hc : isPySpace c
    · rw [if_pos hc, if_pos hc]
      by_cases hcur : cur = []
      · rw [if_pos hcur, if_pos hcur, ih []]
      · rw [if_neg hcur, if_neg hcur, ih []]
    · rw [if_neg hc, if_neg hc, ih]

theorem splitWsAux_space_prefix {s : List Char} (hs : ∀ c ∈ s, isPySpace c = true) :
    ∀ t, splitWsAux (s ++ t) [] = splitWsAux t [] := by
  induction s with
  | nil => intro t; rfl
  | cons c r ih =>
    intro t
    rw [List.cons_append, splitWsAux, if_pos (hs c (by simp)), if_pos rfl]
    exact ih (fun x hx => hs x (by simp [hx])) t

theorem splitWsAux_collapse (l : List Char) :
    ∀ cur, splitWsAux (collapseSpaces l) cur = splitWsAux l cur := by
  induction l with
  | nil => intro cur; rfl
  | cons c rest ih =>
    intro cur
    cases rest with
    | nil =>
      by_cases hc : isPySpace c
      · rw [show collapseSpaces [c] = [' '] from by simp [collapseSpaces, hc]]
        show splitWsAux [' '] cur = splitWsAux [c] cur
        simp only [splitWsAux, if_pos hc]
        rfl
      · rw [show collapseSpaces [c] = [c] from by simp [collapseSpaces, hc]]
    | cons d rest' =>
      rw [collapseSpaces]
      by_cases h1 : isPySpace c && isPySpace d
      · rw [if_pos h1]
        obtain ⟨hc, hd⟩ := Bool.and_eq_true_iff.mp h1
        rw [ih cur]
        by_cases hcur : cur = []
        · subst hcur
          conv_rhs => rw [splitWsAux, if_pos hc, if_pos rfl]
        · conv_lhs => rw [splitWsAux, if_pos hd, if_neg hcur]
          conv_rhs => rw [splitWsAux, if_pos hc, if_neg hcur,
            splitWsAux, if_pos hd, if_pos rfl]
      · rw [if_neg h1]
        by_cases hc : isPySpace c
        · rw [if_pos hc]
          conv_lhs => rw [splitWsAux, if_pos (show isPySpace ' ' = true from by decide)]
          conv_rhs => rw [splitWsAux, if_pos hc]
          by_cases hcur : cur = []
          · rw [if_pos hcur, if_pos hcur, ih []]
          · rw [if_neg hcur, if_neg hcur, ih []]
        · rw [if_neg hc]
          conv_lhs => rw [splitWsAux, if_neg hc]
          conv_rhs => rw [splitWsAux, if_neg hc]
          exact ih (c :: cur)

/-- Whitespace-only prefixes, whitespace-only suffixes and whitespace
collapsing do not change the result of `str.split()`. -/
theorem splitWs_collapse (l : List Char) : splitWs (collapseSpaces l) = splitWs l :=
  splitWsAux_collapse l []

theorem pyStrip_decomposition (l : List Char) :
    ∃ s t, l = s ++ pyStrip l ++ t ∧ (∀ c ∈ s, isPySpace c = true) ∧
      (∀ c ∈ t, isPySpace c = true) := by
  refine ⟨l.takeWhile isPySpace,
    ((l.dropWhile isPySpace).reverse.takeWhile isPySpace).reverse, ?_, ?_, ?_⟩
  · have h1 := List.takeWhile_append_dropWhile isPySpace l
    have h2 := List.takeWhile_append_dropWhile isPySpace (l.dropWhile isPySpace).reverse
    have h3 : l.dropWhile isPySpace =
        ((l.dropWhile isPySpace).reverse.dropWhile isPySpace).reverse ++
          ((l.dropWhile isPySpace).reverse.takeWhile isPySpace).reverse := by
      conv_lhs => rw [← List.reverse_reverse (l.dropWhile isPySpace), ← h2]
      rw [List.reverse_append]
    conv_lhs => rw [← h1, h3]
    rw [pyStrip, List.append_assoc]
  · intro c hc
    exact List.mem_takeWhile_imp hc
  · intro c hc
    rw [List.mem_reverse] at hc
    exact List.mem_takeWhile_imp hc

theorem splitWs_pyStrip (l : List Char) : splitWs (pyStrip l) = splitWs l := by
  obtain ⟨s, t, hdec, hs, ht⟩ := pyStrip_decomposition l
  conv_rhs => rw [hdec]
  unfold splitWs
  rw [List.append_assoc, splitWsAux_space_prefix hs, splitWsAux_append_space ht]

theorem splitWs_punct_pyStrip (l : List Char) :
    splitWs (punctToSpace (pyStrip l)) = splitWs (punctToSpace l) := by
  obtain ⟨s, t, hdec, hs, ht⟩ := pyStrip_decomposition l
  have hsp : ∀ (u : List Char), (∀ c ∈ u, isPySpace c = true) →
      ∀ c ∈ punctToSpace u, isPySpace c = true := by
    intro u hu c hc
    rcases List.mem_map.mp hc with ⟨a, ha, rfl⟩
    have := hu a ha
    rw [if_pos (by rw [this, Bool.or_true])]
    exact this
  have hmapp : ∀ (a b : List Char), punctToSpace (a ++ b) = punctToSpace a ++ punctToSpace b := by
    intro a b
    simp [punctToSpace]
  conv_rhs => rw [hdec]
  unfold splitWs
  rw [hmapp, hmapp, List.append_assoc,
    splitWsAux_space_prefix (hsp s hs), splitWsAux_append_space (hsp t ht)]

/-- Reference formulation of `_normalize_name` in the words of the
specification: lowercase, replace punctuation by spaces, tokenize on
whitespace, drop leading article tokens, drop trailing tokens while the
last token belongs to the legal-suffix set, rejoin with single spaces
(the intermediate collapse and strip steps of the code are redundant for
tokenization, which the equivalence theorem below proves). -/
def normalizeRef (name : String) : String :=
  if name = "" then ""
  else
    let tokens := (splitWs (punctToSpace (name.data.map toLowerCh))).map String.mk
    String.mk (joinSpace ((popTrailing (popLeading tokens)).map String.data))

/-- Claim C1 (amended): `_normalize_name` lowercases, strips punctuation,
collapses whitespace, drops leading article tokens and repeatedly drops the
final token while that single token belongs to the legal-suffix set; since
membership is tested one token at a time, the multi-word entries
`credit union` and `federal credit union` of the suffix set never match a
token, so a name ending in those words keeps them:
`normalizeForComparison("Navy Federal Credit Union")` is
`"navy federal credit union"`, which differs from
`normalizeForComparison("Navy") = "navy"`; single-token suffixes such as
`bank` and `corp` are dropped repeatedly. -/
theorem C1_normalize_tokenwise :
    (∀ name : String, normalizeName name = normalizeRef name) ∧
    normalizeName "Navy Federal Credit Union" = "navy federal credit union" ∧
    normalizeName "Navy" = "navy" ∧
    normalizeName "The First National Bank Corp" = "first national" := by
  refine ⟨?_, by decide, by decide, by decide⟩
  intro name
  unfold normalizeName normalizeRef
  by_cases h : name = ""
  · rw [if_pos h, if_pos h]
  · rw [if_neg h, if_neg h]
    dsimp only
    rw [splitWs_pyStrip, splitWs_collapse, splitWs_punct_pyStrip]

/-- Counterexample to claim C1 as stated: the claim asserts
`normalizeForComparison("Navy Federal Credit Union") =
normalizeForComparison("Navy")`, but the code only drops single trailing
tokens, so the two normalized names differ. -/
theorem C1_counterexample :
    normalizeName "Navy Federal Credit Union" ≠ normalizeName "Navy" := by decide

/-! ### Claim C2 -/

/-- Jaccard word overlap of two normalized names. -/
def jaccardOf (n1 n2 : String) : ℚ :=
  ((wordsOf n1 ∩ wordsOf n2).card : ℚ) / ((wordsOf n1 ∪ wordsOf n2).card : ℚ)

/-- Claim C2: for every pair of normalized names, the similarity is `0`
when either is empty; when both are non-empty but a word set is empty it is
the sequence-matcher ratio alone; otherwise it is
`min(1, 0.6 * basic + 0.3 * overlap + bonus)` with the Jaccard word overlap
and a flat `ic 0.2` bonus exactly when the overlap exceeds `0.8`; and the
result always lies in the closed interval from `0` to `1`. -/
theorem C2_similarity_formula (n1 n2 : String) :
    (n1 = "" ∨ n2 = "" → calculateSimilarity n1 n2 = 0) ∧
    (¬(n1 = "" ∨ n2 = "") → (wordsOf n1 = ∅ ∨ wordsOf n2 = ∅) →
      calculateSimilarity n1 n2 = seqRatio n1 n2) ∧
    (¬(n1 = "" ∨ n2 = "") → wordsOf n1 ≠ ∅ → wordsOf n2 ≠ ∅ →
      calculateSimilarity n1 n2 =
        min 1 (3 / 5 * seqRatio n1 n2 + 3 / 10 * jaccardOf n1 n2 +
          (if 4 / 5 < jaccardOf n1 n2 then (1 / 5 : ℚ) else 0))) ∧
    0 ≤ calculateSimilarity n1 n2 ∧ calculateSimilarity n1 n2 ≤ 1 := by
  unfold calculateSimilarity
  by_cases he : n1 = "" ∨ n2 = ""
  · rw [if_pos he]
    exact ⟨fun _ => rfl, fun h _ => absurd he h, fun h _ _ => absurd he h,
      le_refl 0, by norm_num⟩
  · rw [if_neg he]
    dsimp only
    by_cases hw : wordsOf n1 ≠ ∅ ∧ wordsOf n2 ≠ ∅
    · rw [if_pos hw]
      have hj : 0 ≤ jaccardOf n1 n2 := by
        unfold jaccardOf
        positivity
      have hb : (0 : ℚ) ≤ if 4 / 5 < jaccardOf n1 n2 then (1 / 5 : ℚ) else 0 := by
        split <;> norm_num
      have hr := seqRatio_nonneg n1 n2
      refine ⟨fun h => absurd h he, ?_, fun _ _ _ => rfl, ?_, min_le_left 1 _⟩
      · intro _ hcon
        rcases hcon with h | h
        · exact absurd h hw.1
        · exact absurd h hw.2
      · refine le_min (by norm_num) ?_
        unfold jaccardOf at hj hb
        linarith
    · rw [if_neg hw]
      refine ⟨fun h => absurd h he, fun _ _ => rfl, ?_, seqRatio_nonneg n1 n2,
        seqRatio_le_one n1 n2⟩
      intro _ h1 h2
      exact absurd ⟨h1, h2⟩ hw

unseal Rat.mul Rat.inv Rat.add in
/-- Witness for C2 at a concrete pair of names, discharging the hypotheses
of the non-degenerate branch and evaluating the score. -/
theorem C2_similarity_formula_witness :
    calculateSimilarity "a b" "a c" =
      min 1 (3 / 5 * seqRatio "a b" "a c" + 3 / 10 * jaccardOf "a b" "a c" +
        (if 4 / 5 < jaccardOf "a b" "a c" then (1 / 5 : ℚ) else 0)) ∧
    calculateSimilarity "a b" "a c" = 1 / 2 := by
  have h := (C2_similarity_formula "a b" "a c").2.2.1 (by decide) (by decide) (by decide)
  exact ⟨h, by rw [h]; decide⟩

/-! ### Claim C10 -/

/-- Claim C10 (amended): for every registry state and every raw name that
is non-empty, not case-insensitively `unknown`, `null` or `none`, and
case-insensitively equal to the canonical name or a variation of some
registered mapping, the normalizer answers through the exact-match path:
it returns the canonical name of a mapping the raw name matches and leaves
the whole state (mapping dict and reverse index) unchanged; no variation is
added. -/
theorem C10_exact_match_frame (th : ℚ) (st : RegState) (name : String)
    (hun : ¬(name = "" ∨ lowerStr name ∈ unknownStrings))
    (hmatch : ∃ m ∈ st.mappings, mapKey m = lowerStr name ∨
      m.variations.any (fun v => lowerStr v = lowerStr name)) :
    ∃ m ∈ st.mappings,
      (mapKey m = lowerStr name ∨ m.variations.any (fun v => lowerStr v = lowerStr name)) ∧
      normalizeCompanyName th st name = (m.canonical_name, st) := by
  unfold normalizeCompanyName
  rw [if_neg hun]
  unfold findExactMatch
  cases hfind : st.mappings.find? (fun m => mapKey m = lowerStr name) with
  | some m =>
    refine ⟨m, List.mem_of_find?_eq_some hfind, Or.inl ?_, rfl⟩
    have := List.find?_some hfind
    exact of_decide_eq_true this
  | none =>
    obtain ⟨m0, hm0, hm0p⟩ := hmatch
    have hvar : m0.variations.any (fun v => lowerStr v = lowerStr name) := by
      rcases hm0p with h | h
      · exfalso
        have := List.find?_eq_none.mp hfind m0 hm0
        simp [h] at this
      · exact h
    cases hfind2 : st.mappings.find?
        (fun m => m.variations.any (fun v => lowerStr v = lowerStr name)) with
    | some m =>
      refine ⟨m, List.mem_of_find?_eq_some hfind2, Or.inr ?_, rfl⟩
      have h2 := List.find?_some hfind2
      exact h2
    | none =>
      exfalso
      have := List.find?_eq_none.mp hfind2 m0 hm0
      simp [hvar] at this

/-- A reachable registry state holding a company whose canonical name is
`"None"`: it arises by normalizing the raw name `" none "` (which escapes
the unknown-filter because of its surrounding spaces) in a fresh registry. -/
def reachedNone : RegState := (normalizeCompanyName (4 / 5) ⟨[], []⟩ " none ").2

/-- Counterexample to claim C10 as stated: in the reachable state holding
canonical name `"None"`, the raw name `"NONE"` matches that canonical name
case-insensitively, yet the normalizer returns `"Unknown"` (the
unknown-filter fires first), not the mapping's canonical name. -/
theorem C10_counterexample :
    (∃ m ∈ reachedNone.mappings, mapKey m = lowerStr "NONE" ∧ m.canonical_name = "None") ∧
    normalizeCompanyName (4 / 5) reachedNone "NONE" = ("Unknown", reachedNone) ∧
    ("Unknown" : String) ≠ "None" := by
  refine ⟨⟨⟨"None", [" none ", "None"], "None"⟩, ?_, by decide, rfl⟩, rfl, by decide⟩
  decide

/-- A one-company registry used by concrete witnesses. -/
def chaseState : RegState :=
  ⟨[⟨"Chase Bank", ["Chase Bank"], "Chase_Bank"⟩], [("chase", "Chase Bank")]⟩

/-- Witness for C10 in a concrete state: the exact-match frame theorem
applied to a one-company registry. -/
theorem C10_exact_match_frame_witness :
    ∃ m ∈ chaseState.mappings,
      (mapKey m = lowerStr "chase bank" ∨
        m.variations.any (fun v => lowerStr v = lowerStr "chase bank")) ∧
      normalizeCompanyName (4 / 5) chaseState "chase bank" =
        (m.canonical_name, chaseState) := by
  refine C10_exact_match_frame (4 / 5) chaseState "chase bank" (by decide) ?_
  exact ⟨⟨"Chase Bank", ["Chase Bank"], "Chase_Bank"⟩, by decide, by decide⟩

/-! ### Claim C5 -/

/-- Claim C5: the duplicate scan records exactly the ordered pairs of
registered companies (earlier-registered first) whose normalized canonical
names score strictly above `0.85`, each with its score — so a pair scoring
exactly `0.85` is never a merge candidate; and the keep/merge decision of
`_merge_company_folders` keeps the folder with strictly more PDFs, breaking
ties by keeping the folder whose canonical name length is at most the
other's. -/
theorem C5_duplicate_scan_and_keep :
    (∀ cs : List CompanyMapping, findDuplicates cs = (orderedPairs cs).filterMap
      (fun pr =>
        let s := calculateSimilarity (normalizeName pr.1.canonical_name)
          (normalizeName pr.2.canonical_name)
        if 17 / 20 < s then some (pr.1, pr.2, s) else none)) ∧
    (∀ cs (a b : CompanyMapping) (s : ℚ), (a, b, s) ∈ findDuplicates cs →
      s = calculateSimilarity (normalizeName a.canonical_name)
          (normalizeName b.canonical_name) ∧ 17 / 20 < s) ∧
    (∀ cs (a b : CompanyMapping) (s : ℚ),
      calculateSimilarity (normalizeName a.canonical_name)
        (normalizeName b.canonical_name) = 17 / 20 →
      (a, b, s) ∉ findDuplicates cs) ∧
    (∀ (count1 count2 : Nat) (n1 n2 : String),
      (keepFirst count1 count2 n1 n2 = true →
        count2 < count1 ∨ (count1 = count2 ∧ n1.length ≤ n2.length)) ∧
      (keepFirst count1 count2 n1 n2 = false →
        count1 < count2 ∨ (count2 = count1 ∧ n2.length ≤ n1.length))) := by
  have hmain : ∀ cs : List CompanyMapping, findDuplicates cs = (orderedPairs cs).filterMap
      (fun pr =>
        let s := calculateSimilarity (normalizeName pr.1.canonical_name)
          (normalizeName pr.2.canonical_name)
        if 17 / 20 < s then some (pr.1, pr.2, s) else none) := by
    intro cs
    induction cs with
    | nil => rfl
    | cons c rest ih =>
      rw [findDuplicates, orderedPairs, List.filterMap_append, List.filterMap_map, ih]
      rfl
  have hmem : ∀ cs (a b : CompanyMapping) (s : ℚ), (a, b, s) ∈ findDuplicates cs →
      s = calculateSimilarity (normalizeName a.canonical_name)
        (normalizeName b.canonical_name) ∧ 17 / 20 < s := by
    intro cs a b s hm
    rw [hmain cs] at hm
    rcases List.mem_filterMap.mp hm with ⟨pr, _, hpr⟩
    dsimp only at hpr
    split at hpr
    · rename_i hgt
      obtain ⟨h1, h2, h3⟩ : pr.1 = a ∧ pr.2 = b ∧
          calculateSimilarity (normalizeName pr.1.canonical_name)
            (normalizeName pr.2.canonical_name) = s := by
        have := Option.some_injective _ hpr
        exact ⟨congrArg (fun x => x.1) this,
          congrArg (fun x => x.2.1) this, congrArg (fun x => x.2.2) this⟩
      subst h1
      subst h2
      exact ⟨h3.symm, h3 ▸ hgt⟩
    · exact absurd hpr (by simp)
  refine ⟨hmain, hmem, ?_, ?_⟩
  · intro cs a b s heq hm
    have := hmem cs a b s hm
    rw [this.1, heq] at this
    exact lt_irrefl _ this.2
  · intro count1 count2 n1 n2
    constructor
    · intro h
      exact of_decide_eq_true h
    · intro h
      have := of_decide_eq_false h
      rcases not_or.mp this with ⟨h1, h2⟩
      rcases Decidable.not_and_iff_or_not.mp h2 with h3 | h3
      · omega
      · have h4 := Nat.lt_of_not_le (fun hle => h3 hle)
        omega

/-- Three concrete registered companies: the first two normalize to the
same name (`ab`), the third is unrelated. -/
def dupA : CompanyMapping := ⟨"AB Co", ["AB Co"], "AB_Co"⟩

def dupB : CompanyMapping := ⟨"AB Inc", ["AB Inc"], "AB_Inc"⟩

def dupC : CompanyMapping := ⟨"Zed", ["Zed"], "Zed"⟩

unseal Rat.mul Rat.inv Rat.add in
/-- Witness for C5: in a concrete three-company registry the scan finds
exactly the one pair scoring `1 > 0.85`, and a concrete tie is broken by
canonical-name length. -/
theorem C5_duplicate_scan_and_keep_witness :
    ((1 : ℚ) = calculateSimilarity (normalizeName dupA.canonical_name)
        (normalizeName dupB.canonical_name) ∧ 17 / 20 < (1 : ℚ)) ∧
    (2 < 3 ∨ (3 = 2 ∧ ("x" : String).length ≤ ("yy" : String).length)) := by
  constructor
  · exact C5_duplicate_scan_and_keep.2.1 [dupA, dupB, dupC] dupA dupB 1 (by decide)
  · exact (C5_duplicate_scan_and_keep.2.2.2 3 2 "x" "yy").1 (by decide)

/-! ### Claim C3: characterization of the fuzzy match -/

/-- Similarity of the normalized input against a mapping's canonical name
and every variation, in the iteration order of `_find_fuzzy_match`. -/
def candidateScores (ni : String) (m : CompanyMapping) : List ℚ :=
  (m.canonical_name :: m.variations).map (fun v => calculateSimilarity ni (normalizeName v))

/-- The best score a single mapping achieves. -/
def mappingBest (ni : String) (m : CompanyMapping) : ℚ :=
  (candidateScores ni m).foldl max 0

/-- The flattened candidate stream of the fuzzy-match double loop. -/
def flatCands (ni : String) (st : List CompanyMapping) : List (ℚ × String) :=
  st.flatMap (fun m => (candidateScores ni m).map (fun s => (s, m.canonical_name)))

/-- The best score over every mapping. -/
def bestFuzzyScore (ni : String) (st : List CompanyMapping) : ℚ :=
  ((flatCands ni st).map (fun p => p.1)).foldl max 0

/-- The update step of the running `(best_score, best_match)` pair. -/
def fuzzyStep (th : ℚ) (acc : ℚ × Option String) (p : ℚ × String) : ℚ × Option String :=
  if acc.1 < p.1 ∧ th ≤ p.1 then (p.1, some p.2) else acc

theorem foldl_flatMap_eq {α β γ : Type} (f : β → α → β) (g : γ → List α) :
    ∀ (l : List γ) (b : β), (l.flatMap g).foldl f b = l.foldl (fun acc x => (g x).foldl f acc) b := by
  intro l
  induction l with
  | nil => intro b; rfl
  | cons x xs ih =>
    intro b
    rw [List.flatMap_cons, List.foldl_append, List.foldl_cons, ih]

theorem fuzzyInner_eq (th : ℚ) (ni : String) (m : CompanyMapping)
    (acc : ℚ × Option String) :
    fuzzyInner th ni m acc =
      ((candidateScores ni m).map (fun s => (s, m.canonical_name))).foldl
        (fuzzyStep th) acc := by
  unfold fuzzyInner candidateScores
  rw [List.map_map, List.foldl_map]
  rfl

theorem findFuzzyMatch_eq_flat (th : ℚ) (st : List CompanyMapping) (name : String) :
    findFuzzyMatch th st name =
      ((flatCands (normalizeName name) st).foldl (fuzzyStep th) (0, none)).2 := by
  have houter : ∀ (l : List CompanyMapping) (acc : ℚ × Option String),
      l.foldl (fun acc m => fuzzyInner th (normalizeName name) m acc) acc =
      l.foldl (fun acc m => ((candidateScores (normalizeName name) m).map
        (fun s => (s, m.canonical_name))).foldl (fuzzyStep th) acc) acc := by
    intro l
    induction l with
    | nil => intro acc; rfl
    | cons m rest ih =>
      intro acc
      rw [List.foldl_cons, List.foldl_cons, fuzzyInner_eq, ih]
  unfold findFuzzyMatch flatCands
  rw [foldl_flatMap_eq]
  dsimp only
  rw [houter]

theorem fuzzyStep_absorb (th : ℚ) :
    ∀ (t : List (ℚ × String)) (acc : ℚ × Option String),
      (∀ p ∈ t, p.1 ≤ acc.1) → t.foldl (fuzzyStep th) acc = acc := by
  intro t
  induction t with
  | nil => intro acc _; rfl
  | cons p t' ih =>
    intro acc hb
    rw [List.foldl_cons]
    have hstep : fuzzyStep th acc p = acc := by
      unfold fuzzyStep
      rw [if_neg]
      intro hcon
      exact absurd (hb p (by simp)) (not_le.mpr hcon.1)
    rw [hstep]
    exact ih acc (fun q hq => hb q (by simp [hq]))

theorem fuzzyStep_below (th : ℚ) :
    ∀ (t : List (ℚ × String)) (acc : ℚ × Option String),
      (∀ p ∈ t, p.1 < th) → t.foldl (fuzzyStep th) acc = acc := by
  intro t
  induction t with
  | nil => intro acc _; rfl
  | cons p t' ih =>
    intro acc hb
    rw [List.foldl_cons]
    have hstep : fuzzyStep th acc p = acc := by
      unfold fuzzyStep
      rw [if_neg]
      intro hcon
      exact absurd (hb p (by simp)) (not_lt.mpr hcon.2)
    rw [hstep]
    exact ih acc (fun q hq => hb q (by simp [hq]))

theorem fuzzyStep_argmax (th : ℚ) (B : ℚ) (hth : th ≤ B) :
    ∀ (t : List (ℚ × String)) (acc : ℚ × Option String), acc.1 < B →
      (∀ p ∈ t, p.1 ≤ B) → (∃ p ∈ t, p.1 = B) →
      (t.foldl (fuzzyStep th) acc).2 =
        (t.find? (fun p => p.1 = B)).map (fun p => p.2) := by
  intro t
  induction t with
  | nil =>
    intro acc _ _ hex
    simp at hex
  | cons p t' ih =>
    intro acc hacc hb hex
    rw [List.foldl_cons]
    by_cases hp : p.1 = B
    · rw [List.find?_cons_of_pos _ (by simp [hp])]
      have hstep : fuzzyStep th acc p = (p.1, some p.2) := by
        unfold fuzzyStep
        rw [if_pos ⟨hp ▸ hacc, hp ▸ hth⟩]
      rw [hstep, fuzzyStep_absorb th t' (p.1, some p.2)
        (fun q hq => hp ▸ hb q (by simp [hq]))]
      rfl
    · rw [List.find?_cons_of_neg _ (by simp [hp])]
      have hex' : ∃ q ∈ t', q.1 = B := by
        rcases hex with ⟨q, hq, hqB⟩
        rcases List.mem_cons.mp hq with rfl | hq'
        · exact absurd hqB hp
        · exact ⟨q, hq', hqB⟩
      by_cases hcond : acc.1 < p.1 ∧ th ≤ p.1
      · have hstep : fuzzyStep th acc p = (p.1, some p.2) := by
          unfold fuzzyStep
          rw [if_pos hcond]
        rw [hstep]
        exact ih (p.1, some p.2) (lt_of_le_of_ne (hb p (by simp)) hp)
          (fun q hq => hb q (by simp [hq])) hex'
      · have hstep : fuzzyStep th acc p = acc := by
          unfold fuzzyStep
          rw [if_neg hcond]
        rw [hstep]
        exact ih acc hacc (fun q hq => hb q (by simp [hq])) hex'

theorem foldl_max_le_init (l : List ℚ) : ∀ b : ℚ, b ≤ l.foldl max b := by
  induction l with
  | nil => intro b; exact le_refl b
  | cons x t ih => intro b; exact le_trans (le_max_left b x) (ih (max b x))

theorem foldl_max_le_of_mem {l : List ℚ} {b s : ℚ} (hs : s ∈ l) : s ≤ l.foldl max b := by
  induction l generalizing b with
  | nil => simp at hs
  | cons x t ih =>
    rw [List.foldl_cons]
    rcases List.mem_cons.mp hs with rfl | h
    · exact le_trans (le_max_right b s) (foldl_max_le_init t (max b s))
    · exact ih h

theorem foldl_max_attained (l : List ℚ) (b : ℚ) :
    l.foldl max b = b ∨ l.foldl max b ∈ l := by
  induction l generalizing b with
  | nil => exact Or.inl rfl
  | cons x t ih =>
    rw [List.foldl_cons]
    rcases ih (max b x) with h | h
    · rw [h]
      rcases max_cases b x with ⟨he, _⟩ | ⟨he, _⟩
      · exact Or.inl he
      · exact Or.inr (by simp [he])
    · exact Or.inr (by simp [h])

theorem flat_find_to_mapping (ni : String) (B : ℚ) (hB : 0 < B) :
    ∀ st : List CompanyMapping, (∀ p ∈ flatCands ni st, p.1 ≤ B) →
      ((flatCands ni st).find? (fun p => p.1 = B)).map (fun p => p.2) =
        (st.find? (fun m => mappingBest ni m = B)).map
          (fun m => m.canonical_name) := by
  intro st
  induction st with
  | nil => intro _; rfl
  | cons m rest ih =>
    intro hbound
    have hflatcons : flatCands ni (m :: rest) =
        (candidateScores ni m).map (fun s => (s, m.canonical_name)) ++ flatCands ni rest := by
      unfold flatCands
      rw [List.flatMap_cons]
    have hboundm : ∀ s ∈ candidateScores ni m, s ≤ B := by
      intro s hsm
      refine hbound (s, m.canonical_name) ?_
      rw [hflatcons]
      exact List.mem_append_left _ (List.mem_map.mpr ⟨s, hsm, rfl⟩)
    have hboundrest : ∀ p ∈ flatCands ni rest, p.1 ≤ B := by
      intro p hp
      refine hbound p ?_
      rw [hflatcons]
      exact List.mem_append_right _ hp
    rw [hflatcons, List.find?_append, List.find?_map]
    by_cases hm : mappingBest ni m = B
    · rw [List.find?_cons_of_pos _ (by simp [hm])]
      have hatt : B ∈ candidateScores ni m := by
        rcases foldl_max_attained (candidateScores ni m) 0 with h | h
        · exfalso
          have : mappingBest ni m = 0 := h
          rw [hm] at this
          exact absurd this.symm (ne_of_lt hB)
        · exact hm ▸ h
      have hfind : (candidateScores ni m).find?
          ((fun p : ℚ × String => p.1 = B) ∘ (fun s => (s, m.canonical_name))) ≠ none := by
        intro hnone
        have := List.find?_eq_none.mp hnone B hatt
        simp at this
      cases hsome : (candidateScores ni m).find?
          ((fun p : ℚ × String => p.1 = B) ∘ (fun s => (s, m.canonical_name))) with
      | none => exact absurd hsome hfind
      | some s => rfl
    · rw [List.find?_cons_of_neg _ (by simp [hm])]
      have hnone : (candidateScores ni m).find?
          ((fun p : ℚ × String => p.1 = B) ∘ (fun s => (s, m.canonical_name))) = none := by
        rw [List.find?_eq_none]
        intro s hsm
        simp only [Function.comp]
        intro hcon
        have hle : mappingBest ni m ≤ B := by
          rcases foldl_max_attained (candidateScores ni m) 0 with h | h
          · rw [show mappingBest ni m = 0 from h]
            exact le_of_lt hB
          · exact hboundm _ h
        have hge : B ≤ mappingBest ni m := by
          have hs' : s ≤ (candidateScores ni m).foldl max 0 := foldl_max_le_of_mem hsm
          rw [of_decide_eq_true hcon] at hs'
          exact hs'
        exact hm (le_antisymm hle hge)
      rw [hnone]
      exact ih hboundrest

/-- Claim C3: with a positive threshold, for every raw name that passes the
unknown filter and has no exact match, the normalizer scores the normalized
raw name against every mapping's normalized canonical name and every
normalized variation; if the best score over all candidates is below the
threshold a brand-new mapping is registered, and otherwise the canonical
name of the first-registered mapping achieving the best score is returned
and the raw name is added to that mapping's variations. -/
theorem C3_fuzzy_resolution (th : ℚ) (st : RegState) (name : String)
    (hth : 0 < th)
    (hun : ¬(name = "" ∨ lowerStr name ∈ unknownStrings))
    (hex : findExactMatch st.mappings name = none) :
    (bestFuzzyScore (normalizeName name) st.mappings < th →
      normalizeCompanyName th st name =
        (createCanonicalName name, addNewCompany st (createCanonicalName name) name)) ∧
    (th ≤ bestFuzzyScore (normalizeName name) st.mappings →
      (∃ m, st.mappings.find? (fun x => mappingBest (normalizeName name) x =
        bestFuzzyScore (normalizeName name) st.mappings) = some m) ∧
      ∀ m, st.mappings.find? (fun x => mappingBest (normalizeName name) x =
          bestFuzzyScore (normalizeName name) st.mappings) = some m →
        findFuzzyMatch th st.mappings name = some m.canonical_name ∧
        normalizeCompanyName th st name =
          (m.canonical_name, addVariationState st m.canonical_name name)) := by
  set ni := normalizeName name with hni
  set B := bestFuzzyScore ni st.mappings with hBdef
  have hbound : ∀ p ∈ flatCands ni st.mappings, p.1 ≤ B := by
    intro p hp
    exact foldl_max_le_of_mem (List.mem_map.mpr ⟨p, hp, rfl⟩)
  constructor
  · intro hlt
    have hnone : findFuzzyMatch th st.mappings name = none := by
      rw [findFuzzyMatch_eq_flat, ← hni, fuzzyStep_below th _ _
        (fun p hp => lt_of_le_of_lt (hbound p hp) hlt)]
    unfold normalizeCompanyName
    rw [if_neg hun, hex, hnone]
  · intro hge
    have hBpos : 0 < B := lt_of_lt_of_le hth hge
    have hatt : ∃ p ∈ flatCands ni st.mappings, p.1 = B := by
      rcases foldl_max_attained ((flatCands ni st.mappings).map (fun p => p.1)) 0 with h | h
      · exfalso
        rw [hBdef] at hBpos
        unfold bestFuzzyScore at hBpos
        rw [h] at hBpos
        exact lt_irrefl 0 hBpos
      · rcases List.mem_map.mp h with ⟨p, hp, hpB⟩
        exact ⟨p, hp, hpB⟩
    have hfuzzy : findFuzzyMatch th st.mappings name =
        (st.mappings.find? (fun x => mappingBest ni x = B)).map
          (fun m => m.canonical_name) := by
      rw [findFuzzyMatch_eq_flat, ← hni,
        fuzzyStep_argmax th B hge _ (0, none) hBpos hbound hatt,
        flat_find_to_mapping ni B hBpos st.mappings hbound]
    have hmapsfind := flat_find_to_mapping ni B hBpos st.mappings hbound
    have hflatsome : ∃ q, (flatCands ni st.mappings).find?
        (fun p => p.1 = B) = some q := by
      obtain ⟨p, hp, hpB⟩ := hatt
      cases hflat : (flatCands ni st.mappings).find? (fun p => p.1 = B) with
      | none =>
        exfalso
        have := List.find?_eq_none.mp hflat p hp
        simp [hpB] at this
      | some q => exact ⟨q, rfl⟩
    have hsome : ∃ m, st.mappings.find?
        (fun x => mappingBest ni x = B) = some m := by
      obtain ⟨q, hq⟩ := hflatsome
      rw [hq] at hmapsfind
      cases hcase : st.mappings.find? (fun x => mappingBest ni x = B) with
      | none =>
        rw [hcase] at hmapsfind
        simp at hmapsfind
      | some m => exact ⟨m, rfl⟩
    refine ⟨hsome, ?_⟩
    intro m hm
    have hfz : findFuzzyMatch th st.mappings name = some m.canonical_name := by
      rw [hfuzzy, hm]
      rfl
    refine ⟨hfz, ?_⟩
    unfold normalizeCompanyName
    rw [if_neg hun, hex, hfz]

/-- A one-company registry whose canonical name normalizes to `acme`. -/
def acmeState : RegState :=
  ⟨[⟨"Acme Corp", ["Acme Corp"], "Acme_Corp"⟩], [("acme", "Acme Corp")]⟩

unseal Rat.mul Rat.inv Rat.add in
/-- Witness for C3: the raw name `"ACME"` has no exact match in the
one-company registry, scores `1` against the normalized canonical name
`"acme"`, and is resolved to `"Acme Corp"` with the raw name recorded as a
variation. -/
theorem C3_fuzzy_resolution_witness :
    findFuzzyMatch (4 / 5) acmeState.mappings "ACME" = some "Acme Corp" ∧
    normalizeCompanyName (4 / 5) acmeState "ACME" =
      ("Acme Corp", addVariationState acmeState "Acme Corp" "ACME") := by
  have h := ((C3_fuzzy_resolution (4 / 5) acmeState "ACME" (by decide) (by decide)
    (by decide)).2 (by decide)).2 ⟨"Acme Corp", ["Acme Corp"], "Acme_Corp"⟩ (by decide)
  exact h

/-! ### Claim C4: registry lemmas and the idempotence of `normalize` -/

theorem findExactMatch_mem {st : List CompanyMapping} {name c : String}
    (h : findExactMatch st name = some c) : ∃ m ∈ st, m.canonical_name = c := by
  unfold findExactMatch at h
  cases h1 : st.find? (fun m => mapKey m = lowerStr name) with
  | some m =>
    rw [h1] at h
    exact ⟨m, List.mem_of_find?_eq_some h1, Option.some_injective _ h⟩
  | none =>
    rw [h1] at h
    cases h2 : st.find? (fun m => m.variations.any (fun v => lowerStr v = lowerStr name)) with
    | some m =>
      rw [h2] at h
      exact ⟨m, List.mem_of_find?_eq_some h2, Option.some_injective _ h⟩
    | none =>
      rw [h2] at h
      exact absurd h (by simp)

/-- With pairwise distinct dict keys, looking an existing canonical name up
again is an exact match on its own key. -/
theorem findExactMatch_self {st : List CompanyMapping} {c : String}
    (hN : (st.map mapKey).Nodup) (hm : ∃ m ∈ st, m.canonical_name = c) :
    findExactMatch st c = some c := by
  obtain ⟨m, hmem, hcan⟩ := hm
  have hkey : mapKey m = lowerStr c := by
    unfold mapKey
    rw [hcan]
  unfold findExactMatch
  cases h1 : st.find? (fun x => mapKey x = lowerStr c) with
  | none =>
    exfalso
    have := List.find?_eq_none.mp h1 m hmem
    simp [hkey] at this
  | some m0 =>
    have hkey0 : mapKey m0 = lowerStr c := by
      have := List.find?_some h1
      exact of_decide_eq_true this
    have hmem0 := List.mem_of_find?_eq_some h1
    have heq : m0 = m :=
      List.inj_on_of_nodup_map hN hmem0 hmem (by rw [hkey0, hkey])
    show some m0.canonical_name = some c
    rw [heq, hcan]

theorem fuzzyFold_mem (th : ℚ) :
    ∀ (t : List (ℚ × String)) (acc : ℚ × Option String),
      (t.foldl (fuzzyStep th) acc).2 = acc.2 ∨
        ∃ p ∈ t, (t.foldl (fuzzyStep th) acc).2 = some p.2 := by
  intro t
  induction t with
  | nil => intro acc; exact Or.inl rfl
  | cons p t' ih =>
    intro acc
    rw [List.foldl_cons]
    unfold fuzzyStep
    by_cases hc : acc.1 < p.1 ∧ th ≤ p.1
    · rw [if_pos hc]
      rcases ih (p.1, some p.2) with h | ⟨q, hq, hq2⟩
      · exact Or.inr ⟨p, by simp, h⟩
      · exact Or.inr ⟨q, by simp [hq], hq2⟩
    · rw [if_neg hc]
      rcases ih acc with h | ⟨q, hq, hq2⟩
      · exact Or.inl h
      · exact Or.inr ⟨q, by simp [hq], hq2⟩

theorem findFuzzyMatch_mem {th : ℚ} {st : List CompanyMapping} {name c : String}
    (h : findFuzzyMatch th st name = some c) : ∃ m ∈ st, m.canonical_name = c := by
  rw [findFuzzyMatch_eq_flat] at h
  rcases fuzzyFold_mem th (flatCands (normalizeName name) st) (0, none) with h0 | ⟨p, hp, hp2⟩
  · rw [h0] at h
    exact absurd h (by simp)
  · rw [hp2] at h
    have hpc : p.2 = c := Option.some_injective _ h
    unfold flatCands at hp
    rcases List.mem_flatMap.mp hp with ⟨m, hmem, hpm⟩
    rcases List.mem_map.mp hpm with ⟨s, _, hsp⟩
    refine ⟨m, hmem, ?_⟩
    rw [← hpc, ← hsp]

theorem updateFirst_map_eq {α β : Type} (p : α → Bool) (f : α → α) (g : α → β)
    (hg : ∀ x, p x → g (f x) = g x) :
    ∀ l : List α, (updateFirst p f l).map g = l.map g := by
  intro l
  induction l with
  | nil => rfl
  | cons x xs ih =>
    unfold updateFirst
    by_cases hx : p x
    · rw [if_pos hx, List.map_cons, List.map_cons, hg x hx]
    · rw [if_neg hx, List.map_cons, List.map_cons, ih]

theorem updateFirst_mem_canonical (p : CompanyMapping → Bool)
    (f : CompanyMapping → CompanyMapping)
    (hf : ∀ x, (f x).canonical_name = x.canonical_name) :
    ∀ (l : List CompanyMapping) (m : CompanyMapping), m ∈ l →
      ∃ x ∈ updateFirst p f l, x.canonical_name = m.canonical_name := by
  intro l
  induction l with
  | nil => intro m hm; simp at hm
  | cons y ys ih =>
    intro m hm
    unfold updateFirst
    by_cases hy : p y
    · rw [if_pos hy]
      rcases List.mem_cons.mp hm with rfl | hm'
      · exact ⟨f m, by simp, hf m⟩
      · exact ⟨m, by simp [hm'], rfl⟩
    · rw [if_neg hy]
      rcases List.mem_cons.mp hm with rfl | hm'
      · exact ⟨m, by simp, rfl⟩
      · rcases ih m hm' with ⟨x, hx, hxc⟩
        exact ⟨x, by simp [hx], hxc⟩

theorem updateFirst_const_mem (m : CompanyMapping) (p : CompanyMapping → Bool) :
    ∀ l : List CompanyMapping, (∃ x ∈ l, p x) →
      m ∈ updateFirst p (fun _ => m) l := by
  intro l
  induction l with
  | nil => intro h; simp at h
  | cons y ys ih =>
    intro h
    unfold updateFirst
    by_cases hy : p y
    · rw [if_pos hy]
      simp
    · rw [if_neg hy]
      rcases h with ⟨x, hx, hpx⟩
      rcases List.mem_cons.mp hx with rfl | hx'
      · exact absurd hpx (by simp [hy])
      · exact List.mem_cons_of_mem y (ih ⟨x, hx', hpx⟩)

theorem insertMapping_mem (st : List CompanyMapping) (m : CompanyMapping) :
    m ∈ insertMapping st m := by
  unfold insertMapping
  by_cases h : st.any (fun x => mapKey x = mapKey m)
  · rw [if_pos h]
    rcases List.any_eq_true.mp h with ⟨x, hx, hpx⟩
    exact updateFirst_const_mem m _ st ⟨x, hx, hpx⟩
  · rw [if_neg h]
    simp

theorem insertMapping_keys_nodup (st : List CompanyMapping) (m : CompanyMapping)
    (hN : (st.map mapKey).Nodup) : ((insertMapping st m).map mapKey).Nodup := by
  unfold insertMapping
  by_cases h : st.any (fun x => mapKey x = mapKey m)
  · rw [if_pos h]
    rw [updateFirst_map_eq (fun x => mapKey x = mapKey m) (fun _ => m) mapKey
      (fun x hx => by rw [of_decide_eq_true hx]) st]
    exact hN
  · rw [if_neg h]
    rw [List.map_append]
    rw [List.nodup_append]
    refine ⟨hN, by simp, ?_⟩
    intro k hk
    simp only [List.map_cons, List.map_nil, List.mem_singleton]
    intro hkm
    rcases List.mem_map.mp hk with ⟨x, hx, hxk⟩
    have : st.any (fun x => mapKey x = mapKey m) = true :=
      List.any_eq_true.mpr ⟨x, hx, by simp [hxk, hkm]⟩
    exact h this

/-- A returned canonical name that is `"Unknown"` or escapes the unknown
filter re-normalizes to itself when the state contains a mapping carrying
it and the dict keys are distinct. -/
theorem normalize_self (th : ℚ) (st' : RegState) (c : String)
    (hN : (st'.mappings.map mapKey).Nodup)
    (hc : c = "Unknown" ∨ (c ≠ "" ∧ lowerStr c ∉ unknownStrings))
    (hm : c ≠ "Unknown" → ∃ m ∈ st'.mappings, m.canonical_name = c) :
    normalizeCompanyName th st' c = (c, st') := by
  rcases hc with rfl | ⟨hne, hnu⟩
  · unfold normalizeCompanyName
    rw [if_pos (Or.inr (by decide))]
  · by_cases hU : c = "Unknown"
    · subst hU
      unfold normalizeCompanyName
      rw [if_pos (Or.inr (by decide))]
    · unfold normalizeCompanyName
      rw [if_neg (by exact fun h => h.elim hne hnu), findExactMatch_self hN (hm hU)]

/-- Claim C4 (amended): for every registry state with pairwise distinct
dict keys and every input string, if the first call returns canonical name
`c` and post-state `s`, then re-normalizing `c` in state `s` returns
`(c, s)` again, provided `c` is `"Unknown"` or is non-empty and escapes the
unknown filter.  The proviso is forced by the counterexample below: raw
names that are whitespace-only (canonicalized to `""`) or whose stripped
form lower-cases to `none`, `null` or `unknown` break the fixpoint. -/
theorem C4_normalize_idempotent (th : ℚ) (st : RegState) (x : String)
    (hN : (st.mappings.map mapKey).Nodup)
    (hc : (normalizeCompanyName th st x).1 = "Unknown" ∨
      ((normalizeCompanyName th st x).1 ≠ "" ∧
        lowerStr (normalizeCompanyName th st x).1 ∉ unknownStrings)) :
    normalizeCompanyName th (normalizeCompanyName th st x).2
      (normalizeCompanyName th st x).1 =
      ((normalizeCompanyName th st x).1, (normalizeCompanyName th st x).2) := by
  by_cases h1 : x = "" ∨ lowerStr x ∈ unknownStrings
  · have hr : normalizeCompanyName th st x = ("Unknown", st) := by
      unfold normalizeCompanyName
      rw [if_pos h1]
    rw [hr]
    exact normalize_self th st "Unknown" hN (Or.inl rfl) (fun h => absurd rfl h)
  · cases hE : findExactMatch st.mappings x with
    | some c =>
      have hr : normalizeCompanyName th st x = (c, st) := by
        unfold normalizeCompanyName
        rw [if_neg h1, hE]
      rw [hr] at hc ⊢
      exact normalize_self th st c hN hc (fun _ => findExactMatch_mem hE)
    | none =>
      cases hF : findFuzzyMatch th st.mappings x with
      | some c =>
        have hr : normalizeCompanyName th st x = (c, addVariationState st c x) := by
          unfold normalizeCompanyName
          rw [if_neg h1, hE, hF]
        rw [hr] at hc ⊢
        have hN' : ((addVariationState st c x).mappings.map mapKey).Nodup := by
          unfold addVariationState
          rw [updateFirst_map_eq (fun m => mapKey m = lowerStr c)
            (fun m => { m with variations := setAdd m.variations x }) mapKey
            (fun m _ => rfl) st.mappings]
          exact hN
        refine normalize_self th _ c hN' hc (fun _ => ?_)
        obtain ⟨m, hmem, hcan⟩ := findFuzzyMatch_mem hF
        show ∃ y ∈ (addVariationState st c x).mappings, y.canonical_name = c
        obtain ⟨y, hy, hyc⟩ := updateFirst_mem_canonical
          (fun m => mapKey m = lowerStr c)
          (fun m => { m with variations := setAdd m.variations x })
          (fun m => rfl) st.mappings m hmem
        exact ⟨y, hy, hyc.trans hcan⟩
      | none =>
        have hr : normalizeCompanyName th st x =
            (createCanonicalName x, addNewCompany st (createCanonicalName x) x) := by
          unfold normalizeCompanyName
          rw [if_neg h1, hE, hF]
        rw [hr] at hc ⊢
        set c := createCanonicalName x with hcdef
        have hN' : ((addNewCompany st c x).mappings.map mapKey).Nodup := by
          unfold addNewCompany
          exact insertMapping_keys_nodup st.mappings _ hN
        refine normalize_self th _ c hN' hc (fun _ => ?_)
        unfold addNewCompany
        refine ⟨_, insertMapping_mem st.mappings _, rfl⟩

/-- Witness for C4: a concrete non-degenerate round trip through the
new-company branch. -/
theorem C4_normalize_idempotent_witness :
    normalizeCompanyName (4 / 5) (normalizeCompanyName (4 / 5) ⟨[], []⟩ "zed co").2
      (normalizeCompanyName (4 / 5) ⟨[], []⟩ "zed co").1 =
      ((normalizeCompanyName (4 / 5) ⟨[], []⟩ "zed co").1,
        (normalizeCompanyName (4 / 5) ⟨[], []⟩ "zed co").2) := by
  exact C4_normalize_idempotent (4 / 5) ⟨[], []⟩ "zed co" (by decide) (by decide)

/-- Counterexample to claim C4 as stated: on the empty registry the
whitespace-only raw name `" "` is canonicalized to the empty string, and
re-normalizing that result returns `"Unknown"`, not the empty string, so
`normalize` is not a fixpoint on its own output. -/
theorem C4_counterexample :
    (normalizeCompanyName (4 / 5) ⟨[], []⟩ " ").1 = "" ∧
    normalizeCompanyName (4 / 5) (normalizeCompanyName (4 / 5) ⟨[], []⟩ " ").2 "" =
      ("Unknown", (normalizeCompanyName (4 / 5) ⟨[], []⟩ " ").2) ∧
    ("Unknown" : String) ≠ "" := by
  exact ⟨by decide, by decide, by decide⟩

/-! ### Claims C6 and C7: path facts for the merge loop -/

theorem natToDecAux_chars (fuel n : Nat) :
    ∀ c ∈ natToDecAux fuel n, ∃ d, d < 10 ∧ c = digitCh d := by
  induction fuel generalizing n with
  | zero => intro c hc; simp [natToDecAux] at hc
  | succ fuel ih =>
    intro c hc
    rw [natToDecAux] at hc
    by_cases h10 : n < 10
    · rw [if_pos h10] at hc
      rcases List.mem_singleton.mp hc with rfl
      exact ⟨n, h10, rfl⟩
    · rw [if_neg h10] at hc
      rcases List.mem_append.mp hc with h | h
      · exact ih (n / 10) c h
      · rcases List.mem_singleton.mp h with rfl
        exact ⟨n % 10, Nat.mod_lt _ (by norm_num), rfl⟩

theorem natToDec_chars (k : Nat) : ∀ c ∈ natToDec k, ∃ d, d < 10 ∧ c = digitCh d :=
  natToDecAux_chars (k + 1) k

theorem natToDec_ne_nil (k : Nat) : natToDec k ≠ [] := by
  unfold natToDec natToDecAux
  by_cases h10 : k < 10
  · rw [if_pos h10]
    simp
  · rw [if_neg h10]
    simp

theorem digitCh_ne_slash {d : Nat} (h : d < 10) : digitCh d ≠ '/' := by
  interval_cases d <;> decide

theorem digitCh_ne_f {d : Nat} (h : d < 10) : digitCh d ≠ 'f' := by
  interval_cases d <;> decide

theorem pathDir_append_pathBase (l : List Char) : pathDir l ++ pathBase l = l := by
  unfold pathDir pathBase
  rw [← List.reverse_append, List.takeWhile_append_dropWhile, List.reverse_reverse]

theorem pathBase_no_slash (l : List Char) : ∀ c ∈ pathBase l, c ≠ '/' := by
  intro c hc
  unfold pathBase at hc
  rw [List.mem_reverse] at hc
  have := List.mem_takeWhile_imp hc
  simpa using this

theorem takeWhile_append_all {p : α → Bool} :
    ∀ {l₁ : List α} (l₂ : List α), (∀ a ∈ l₁, p a = true) →
      (l₁ ++ l₂).takeWhile p = l₁ ++ l₂.takeWhile p := by
  intro l₁
  induction l₁ with
  | nil => intro l₂ _; rfl
  | cons x xs ih =>
    intro l₂ h
    rw [List.cons_append, List.takeWhile_cons_of_pos (h x (by simp)), ih l₂
      (fun a ha => h a (by simp [ha])), List.cons_append]

theorem dropWhile_head_not (p : α → Bool) :
    ∀ (l : List α) (c : α) (t : List α), l.dropWhile p = c :: t → p c = false := by
  intro l
  induction l with
  | nil => intro c t h; simp at h
  | cons x xs ih =>
    intro c t h
    by_cases hx : p x
    · rw [List.dropWhile_cons_of_pos hx] at h
      exact ih c t h
    · rw [List.dropWhile_cons_of_neg hx] at h
      injection h with h1 _
      subst h1
      simpa using hx

theorem takeWhile_dropWhile_nil (p : α → Bool) (l : List α) :
    (l.dropWhile p).takeWhile p = [] := by
  cases h : l.dropWhile p with
  | nil => rfl
  | cons c t =>
    have hc : ¬ p c = true := by
      rw [dropWhile_head_not p l c t h]
      simp
    rw [List.takeWhile_cons_of_neg hc]

theorem pathBase_append (l x : List Char) (hx : ∀ c ∈ x, c ≠ '/') :
    pathBase (pathDir l ++ x) = x := by
  unfold pathBase pathDir
  rw [List.reverse_append, List.reverse_reverse]
  rw [takeWhile_append_all _ (fun c hc => by
    rw [List.mem_reverse] at hc
    simpa using hx c hc)]
  rw [takeWhile_dropWhile_nil]
  rw [List.append_nil, List.reverse_reverse]

theorem baseSplit_append (base : List Char) : baseStem base ++ baseExt base = base := by
  unfold baseStem baseExt baseSplit
  by_cases h : 0 < (base.reverse.takeWhile (fun c => c ≠ '.')).length ∧
      2 ≤ (base.reverse.dropWhile (fun c => c ≠ '.')).length
  · rw [if_pos h]
    dsimp only
    cases hpc : base.reverse.dropWhile (fun c => decide (c ≠ '.')) with
    | nil =>
      exfalso
      rw [hpc] at h
      simp at h
    | cons p0 pre' =>
      have hp0 : p0 = '.' := by
        have hd := dropWhile_head_not (fun c => decide (c ≠ '.')) base.reverse p0 pre' hpc
        simpa using hd
      have hsplit : base.reverse.takeWhile (fun c => decide (c ≠ '.')) ++
          base.reverse.dropWhile (fun c => decide (c ≠ '.')) = base.reverse :=
        List.takeWhile_append_dropWhile _ _
      simp only [List.drop_succ_cons, List.drop_zero]
      conv_rhs => rw [← List.reverse_reverse base, ← hsplit, List.reverse_append, hpc,
        List.reverse_cons, hp0, List.append_assoc]
      rfl
  · rw [if_neg h]
    simp

/-- The extension is empty or a dot followed by a non-empty dot-free tail,
with a non-empty stem. -/
theorem baseExt_cases (base : List Char) :
    baseExt base = [] ∨
      (∃ tail, baseExt base = '.' :: tail ∧ tail ≠ [] ∧ (∀ c ∈ tail, c ≠ '.') ∧
        baseStem base ≠ []) := by
  unfold baseExt baseStem baseSplit
  by_cases h : 0 < (base.reverse.takeWhile (fun c => c ≠ '.')).length ∧
      2 ≤ (base.reverse.dropWhile (fun c => c ≠ '.')).length
  · rw [if_pos h]
    refine Or.inr ⟨(base.reverse.takeWhile (fun c => c ≠ '.')).reverse, rfl, ?_, ?_, ?_⟩
    · intro hcon
      rw [List.reverse_eq_nil_iff] at hcon
      rw [hcon] at h
      simp at h
    · intro c hc
      rw [List.mem_reverse] at hc
      simpa using List.mem_takeWhile_imp hc
    · dsimp only
      intro hcon
      rw [List.reverse_eq_nil_iff, List.drop_eq_nil_iff] at hcon
      omega
  · rw [if_neg h]
    left
    rfl

theorem rev_append_cons (a : List Char) (c : Char) (b : List Char) :
    (a ++ c :: b).reverse = b.reverse ++ c :: a.reverse := by
  simp [List.reverse_append, List.append_assoc]

theorem take4_dotfree_iff (rt rest : List Char) (hne : rt ≠ [])
    (hdf : ∀ c ∈ rt, c ≠ '.') :
    (rt ++ '.' :: rest).take 4 = pdfRev ↔ rt = ['f', 'd', 'p'] := by
  rcases rt with _ | ⟨a, _ | ⟨b, _ | ⟨c, _ | ⟨d, t⟩⟩⟩⟩
  · exact absurd rfl hne
  · constructor
    · intro h
      simp [pdfRev, List.take_succ_cons] at h
    · intro h
      simp at h
  · constructor
    · intro h
      simp [pdfRev, List.take_succ_cons] at h
    · intro h
      simp at h
  · simp [pdfRev, List.take_succ_cons]
  · have hd : d ≠ '.' := hdf d (by simp)
    constructor
    · intro h
      simp [pdfRev, List.take_succ_cons] at h
      exact absurd h.2.2.2 hd
    · intro h
      simp at h

theorem take4_digits_ne (rd rest : List Char) (hne : rd ≠ [])
    (hdig : ∀ c ∈ rd, ∃ k, k < 10 ∧ c = digitCh k) :
    (rd ++ '_' :: rest).take 4 ≠ pdfRev := by
  rcases rd with _ | ⟨x, t⟩
  · exact absurd rfl hne
  · intro h
    rw [List.cons_append, List.take_succ_cons] at h
    have hx : x = 'f' := by
      injection h
    rcases hdig x (by simp) with ⟨k, hk, rfl⟩
    exact digitCh_ne_f hk hx

theorem baseExt_nil_cond {base : List Char} (h : baseExt base = []) :
    ¬(0 < (base.reverse.takeWhile (fun c => c ≠ '.')).length ∧
      2 ≤ (base.reverse.dropWhile (fun c => c ≠ '.')).length) := by
  intro hc
  unfold baseExt baseSplit at h
  rw [if_pos hc] at h
  simp at h

theorem pathBase_renamed (p : String) (k : Nat) :
    pathBase (renamedPathS p k).data =
      baseStem (pathBase p.data) ++ '_' :: natToDec k ++ baseExt (pathBase p.data) := by
  have hsplit := baseSplit_append (pathBase p.data)
  show pathBase (renamedPath p.data k) = _
  unfold renamedPath
  rw [show pathDir p.data ++ baseStem (pathBase p.data) ++ '_' :: natToDec k ++
      baseExt (pathBase p.data) =
      pathDir p.data ++ (baseStem (pathBase p.data) ++ '_' :: natToDec k ++
        baseExt (pathBase p.data)) from by simp [List.append_assoc]]
  apply pathBase_append
  intro c hc
  rcases List.mem_append.mp hc with hsd | hec
  · rcases List.mem_append.mp hsd with hs | hdx
    · refine pathBase_no_slash p.data c ?_
      rw [← hsplit]
      exact List.mem_append_left _ hs
    · rcases List.mem_cons.mp hdx with rfl | hdc
      · decide
      · rcases natToDec_chars k c hdc with ⟨d, hd, rfl⟩
        exact digitCh_ne_slash hd
  · refine pathBase_no_slash p.data c ?_
    rw [← hsplit]
    exact List.mem_append_right _ hec

/-- Renaming with a `_k` counter preserves the `*.pdf` match, except for a
base name that is exactly `.pdf` (empty `pathlib` suffix). -/
theorem isPdf_renamed (p : String) (k : Nat) (hbase : pathBase p.data ≠ ".pdf".data) :
    isPdfPath (renamedPathS p k) = isPdfPath p := by
  have hPB := pathBase_renamed p k
  have hsplit := baseSplit_append (pathBase p.data)
  unfold isPdfPath
  rw [hPB]
  rcases baseExt_cases (pathBase p.data) with hext | ⟨tail, hext, htne, htdf, hstne⟩
  · have hcond := baseExt_nil_cond hext
    have hA : ¬((baseStem (pathBase p.data) ++ '_' :: natToDec k ++
        baseExt (pathBase p.data)).reverse.take 4 = pdfRev) := by
      rw [hext, List.append_nil, rev_append_cons]
      refine take4_digits_ne _ _ ?_ ?_
      · rw [ne_eq, List.reverse_eq_nil_iff]
        exact natToDec_ne_nil k
      · intro c hc
        rw [List.mem_reverse] at hc
        exact natToDec_chars k c hc
    have hB : ¬((pathBase p.data).reverse.take 4 = pdfRev) := by
      intro h
      have hR : (pathBase p.data).reverse =
          'f' :: 'd' :: 'p' :: '.' :: (pathBase p.data).reverse.drop 4 := by
        conv_lhs => rw [← List.take_append_drop 4 (pathBase p.data).reverse, h]
        rfl
      cases hX : (pathBase p.data).reverse.drop 4 with
      | nil =>
        rw [hX] at hR
        have : pathBase p.data = ".pdf".data := by
          have := congrArg List.reverse hR
          rwa [List.reverse_reverse] at this
        exact hbase this
      | cons y ys =>
        refine hcond ?_
        constructor
        · rw [hR]
          rw [List.takeWhile_cons_of_pos (by decide), List.takeWhile_cons_of_pos (by decide),
            List.takeWhile_cons_of_pos (by decide), List.takeWhile_cons_of_neg (by decide)]
          simp
        · rw [hR]
          rw [List.dropWhile_cons_of_pos (by decide), List.dropWhile_cons_of_pos (by decide),
            List.dropWhile_cons_of_pos (by decide), List.dropWhile_cons_of_neg (by decide)]
          rw [hX]
          simp
    rw [decide_eq_decide.mpr (iff_of_false hA hB)]
  · have htne' : tail.reverse ≠ [] := by
      rw [ne_eq, List.reverse_eq_nil_iff]
      exact htne
    have htdf' : ∀ c ∈ tail.reverse, c ≠ '.' := by
      intro c hc
      rw [List.mem_reverse] at hc
      exact htdf c hc
    have hbase_eq : pathBase p.data = baseStem (pathBase p.data) ++ '.' :: tail := by
      conv_lhs => rw [← hsplit, hext]
    have hrevbase : (pathBase p.data).reverse =
        tail.reverse ++ '.' :: (baseStem (pathBase p.data)).reverse := by
      conv_lhs => rw [hbase_eq]
      exact rev_append_cons _ _ _
    have hrevnew : (baseStem (pathBase p.data) ++ '_' :: natToDec k ++
        baseExt (pathBase p.data)).reverse =
        tail.reverse ++ '.' :: ((natToDec k).reverse ++ '_' ::
          (baseStem (pathBase p.data)).reverse) := by
      rw [hext, rev_append_cons, rev_append_cons]
    rw [hrevnew, hrevbase]
    rw [decide_eq_decide.mpr
      ((take4_dotfree_iff _ _ htne' htdf').trans
        (take4_dotfree_iff _ _ htne' htdf').symm)]

theorem renamedPathS_injective (p : String) : Function.Injective (renamedPathS p) := by
  intro a b hab
  exact renamedPath_injective p.data (congrArg String.data hab)

/-- The `while` loop of the counter search: if a free counter lies within
the fuel window, the result is the least free counter at or above the
start. -/
theorem freshIdxAux_spec (existing : List String) (p : String) :
    ∀ fuel start, (∃ j, start ≤ j ∧ j < start + fuel ∧ renamedPathS p j ∉ existing) →
      renamedPathS p (freshIdxAux existing p fuel start) ∉ existing ∧
        start ≤ freshIdxAux existing p fuel start ∧
        ∀ j, start ≤ j → j < freshIdxAux existing p fuel start →
          renamedPathS p j ∈ existing := by
  intro fuel
  induction fuel with
  | zero =>
    intro start h
    obtain ⟨j, h1, h2, _⟩ := h
    omega
  | succ f ih =>
    intro start h
    rw [freshIdxAux]
    by_cases hmem : renamedPathS p start ∈ existing
    · rw [if_pos hmem]
      obtain ⟨j, hj1, hj2, hj3⟩ := h
      have hjs : j ≠ start := by
        intro hc
        rw [hc] at hj3
        exact hj3 hmem
      obtain ⟨h1, h2, h3⟩ := ih (start + 1) ⟨j, by omega, by omega, hj3⟩
      refine ⟨h1, by omega, ?_⟩
      intro i hi1 hi2
      by_cases his : i = start
      · rw [his]
        exact hmem
      · exact h3 i (by omega) hi2
    · rw [if_neg hmem]
      exact ⟨hmem, le_refl start, fun j h1 h2 => absurd h2 (by omega)⟩

/-- Pigeonhole: among `existing.length + 1` distinct rename candidates at
least one is absent from `existing`. -/
theorem freshIdx_exists (existing : List String) (p : String) :
    ∃ j, 1 ≤ j ∧ j < 1 + (existing.length + 1) ∧ renamedPathS p j ∉ existing := by
  by_contra hcon
  push_neg at hcon
  have hmaps : ∀ j ∈ Finset.range (existing.length + 1),
      renamedPathS p (j + 1) ∈ existing.toFinset := by
    intro j hj
    rw [List.mem_toFinset]
    rw [Finset.mem_range] at hj
    exact hcon (j + 1) (by omega) (by omega)
  have hinj : Set.InjOn (fun j => renamedPathS p (j + 1))
      (Finset.range (existing.length + 1)) := by
    intro a _ b _ hab
    have := renamedPathS_injective p hab
    omega
  have hcard := Finset.card_le_card_of_injOn _ hmaps hinj
  rw [Finset.card_range] at hcard
  have := existing.toFinset_card_le
  omega

/-- The counter chosen by the rename loop is the least free one, at least 1. -/
theorem freshIdx_spec (existing : List String) (p : String) :
    renamedPathS p (freshIdx existing p) ∉ existing ∧ 1 ≤ freshIdx existing p ∧
      ∀ j, 1 ≤ j → j < freshIdx existing p → renamedPathS p j ∈ existing :=
  freshIdxAux_spec existing p (existing.length + 1) 1 (freshIdx_exists existing p)

theorem resolveTarget_not_mem (existing : List String) (p : String) :
    resolveTarget existing p ∉ existing := by
  unfold resolveTarget
  by_cases h : p ∈ existing
  · rw [if_pos h]
    exact (freshIdx_spec existing p).1
  · rw [if_neg h]
    exact h

theorem isPdf_resolveTarget (existing : List String) (p : String)
    (hbase : pathBase p.data ≠ ".pdf".data) :
    isPdfPath (resolveTarget existing p) = isPdfPath p := by
  unfold resolveTarget
  by_cases h : p ∈ existing
  · rw [if_pos h]
    exact isPdf_renamed p _ hbase
  · rw [if_neg h]

theorem countPdfIn_append (a b : List String) :
    countPdfIn (a ++ b) = countPdfIn a + countPdfIn b := by
  unfold countPdfIn
  rw [List.filter_append, List.length_append]

theorem countPdfIn_singleton (x : String) :
    countPdfIn [x] = if isPdfPath x then 1 else 0 := by
  unfold countPdfIn
  by_cases h : isPdfPath x
  · rw [if_pos h, List.filter_cons_of_pos h]
    rfl
  · rw [if_neg h, List.filter_cons_of_neg (by simpa using h)]
    rfl

theorem countPdfIn_cons (x : String) (l : List String) :
    countPdfIn (x :: l) = (if isPdfPath x then 1 else 0) + countPdfIn l := by
  rw [show x :: l = [x] ++ l from rfl, countPdfIn_append, countPdfIn_singleton]

theorem mergeMove_countPdf :
    ∀ ms keep : List String, (∀ p ∈ ms, pathBase p.data ≠ ".pdf".data) →
      countPdfIn (mergeMove keep ms) = countPdfIn keep + countPdfIn ms := by
  intro ms
  induction ms with
  | nil =>
    intro keep _
    rfl
  | cons p rest ih =>
    intro keep hdot
    rw [show mergeMove keep (p :: rest) = mergeMove (moveOne keep p) rest from rfl]
    rw [ih (moveOne keep p) (fun q hq => hdot q (by simp [hq]))]
    rw [show moveOne keep p = keep ++ [resolveTarget keep p] from rfl]
    rw [countPdfIn_append, countPdfIn_singleton,
      isPdf_resolveTarget keep p (hdot p (by simp)), countPdfIn_cons]
    omega

theorem mergeMove_length :
    ∀ ms keep : List String, (mergeMove keep ms).length = keep.length + ms.length := by
  intro ms
  induction ms with
  | nil =>
    intro keep
    rfl
  | cons p rest ih =>
    intro keep
    rw [show mergeMove keep (p :: rest) = mergeMove (moveOne keep p) rest from rfl]
    rw [ih (moveOne keep p)]
    rw [show moveOne keep p = keep ++ [resolveTarget keep p] from rfl]
    simp only [List.length_append, List.length_cons, List.length_nil]
    omega

theorem mergeMove_mem :
    ∀ ms keep : List String, ∀ x ∈ keep, x ∈ mergeMove keep ms := by
  intro ms
  induction ms with
  | nil =>
    intro keep x h
    exact h
  | cons p rest ih =>
    intro keep x h
    exact ih (moveOne keep p) x (List.mem_append_left _ h)

theorem mergeMove_nodup :
    ∀ ms keep : List String, keep.Nodup → (mergeMove keep ms).Nodup := by
  intro ms
  induction ms with
  | nil =>
    intro keep h
    exact h
  | cons p rest ih =>
    intro keep h
    refine ih (moveOne keep p) ?_
    rw [show moveOne keep p = keep ++ [resolveTarget keep p] from rfl]
    rw [List.nodup_append]
    refine ⟨h, List.nodup_singleton _, ?_⟩
    intro a ha hb
    rw [List.mem_singleton] at hb
    subst hb
    exact resolveTarget_not_mem keep p ha

theorem map_update_noop (kn : String) (v : List String) :
    ∀ L : List (String × List String), (∀ x ∈ L, x.1 ≠ kn) →
      L.map (fun x => if x.1 = kn then (x.1, v) else x) = L := by
  intro L
  induction L with
  | nil =>
    intro _
    rfl
  | cons a rest ih =>
    intro h
    rw [List.map_cons, if_neg (h a (by simp)), ih (fun x hx => h x (by simp [hx]))]

theorem filter_ne_noop (mn : String) :
    ∀ L : List (String × List String), (∀ x ∈ L, x.1 ≠ mn) →
      L.filter (fun x => x.1 ≠ mn) = L := by
  intro L
  induction L with
  | nil =>
    intro _
    rfl
  | cons a rest ih =>
    intro h
    rw [List.filter_cons_of_pos (by simpa using h a (by simp)),
      ih (fun x hx => h x (by simp [hx]))]

/-- Replacing the files of the folder found at key `kn` moves the sum of any
weight `g` by the weight difference at that entry. -/
theorem sum_map_update (g : String × List String → Nat) (kn : String) (v : List String) :
    ∀ L : List (String × List String), (L.map Prod.fst).Nodup →
      ∀ e, L.find? (fun x => x.1 = kn) = some e →
      ((L.map (fun x => if x.1 = kn then (x.1, v) else x)).map g).sum + g e =
        (L.map g).sum + g (kn, v) := by
  intro L
  induction L with
  | nil =>
    intro _ e he
    simp at he
  | cons a rest ih =>
    intro hnd e he
    by_cases ha : a.1 = kn
    · rw [List.find?_cons_of_pos _ (by simpa using ha)] at he
      injection he with he
      subst he
      have hrest : ∀ x ∈ rest, x.1 ≠ kn := by
        intro x hx hc
        refine (List.nodup_cons.mp hnd).1 ?_
        rw [ha, ← hc]
        exact List.mem_map.mpr ⟨x, hx, rfl⟩
      rw [List.map_cons, if_pos ha, map_update_noop kn v rest hrest,
        List.map_cons, List.sum_cons, List.map_cons, List.sum_cons, ha]
      omega
    · rw [List.find?_cons_of_neg _ (by simpa using ha)] at he
      rw [List.map_cons, if_neg ha, List.map_cons, List.sum_cons,
        List.map_cons, List.sum_cons]
      have := ih (List.nodup_cons.mp hnd).2 e he
      omega

/-- Dropping the folder found at key `mn` removes exactly its weight from
the sum. -/
theorem sum_filter_out (g : String × List String → Nat) (mn : String) :
    ∀ L : List (String × List String), (L.map Prod.fst).Nodup →
      ∀ e, L.find? (fun x => x.1 = mn) = some e →
      ((L.filter (fun x => x.1 ≠ mn)).map g).sum + g e = (L.map g).sum := by
  intro L
  induction L with
  | nil =>
    intro _ e he
    simp at he
  | cons a rest ih =>
    intro hnd e he
    by_cases ha : a.1 = mn
    · rw [List.find?_cons_of_pos _ (by simpa using ha)] at he
      injection he with he
      subst he
      have hrest : ∀ x ∈ rest, x.1 ≠ mn := by
        intro x hx hc
        refine (List.nodup_cons.mp hnd).1 ?_
        rw [ha, ← hc]
        exact List.mem_map.mpr ⟨x, hx, rfl⟩
      rw [List.filter_cons_of_neg (by simpa using ha), filter_ne_noop mn rest hrest,
        List.map_cons, List.sum_cons]
      omega
    · rw [List.find?_cons_of_neg _ (by simpa using ha)] at he
      rw [List.filter_cons_of_pos (by simpa using ha), List.map_cons, List.sum_cons,
        List.map_cons, List.sum_cons]
      have := ih (List.nodup_cons.mp hnd).2 e he
      omega

theorem map_fst_update (kn : String) (v : List String)
    (L : List (String × List String)) :
    (L.map (fun x => if x.1 = kn then (x.1, v) else x)).map Prod.fst =
      L.map Prod.fst := by
  rw [List.map_map]
  refine List.map_congr_left ?_
  intro x _
  by_cases h : x.1 = kn <;> simp [h]

/-- The whole folder surgery of a merge: update the kept folder's files to
`v`, drop the merge folder; any weight sum is preserved provided the new
files weigh as much as both old entries together. -/
theorem merge_surgery_sum (g : String × List String → Nat)
    (L : List (String × List String)) (kn mn : String) (v kf mf : List String)
    (hnd : (L.map Prod.fst).Nodup) (hne : kn ≠ mn)
    (hk : (L.find? (fun x => x.1 = kn)).map (fun x => x.2) = some kf)
    (hm : (L.find? (fun x => x.1 = mn)).map (fun x => x.2) = some mf)
    (hgv : g (kn, v) = g (kn, kf) + g (mn, mf)) :
    (((L.map (fun x => if x.1 = kn then (x.1, v) else x)).filter
        (fun x => x.1 ≠ mn)).map g).sum = (L.map g).sum := by
  obtain ⟨ek, hek, hek2⟩ := Option.map_eq_some'.mp hk
  obtain ⟨em, hem, hem2⟩ := Option.map_eq_some'.mp hm
  have hek1 : ek.1 = kn := by simpa using List.find?_some hek
  have hem1 : em.1 = mn := by simpa using List.find?_some hem
  have hekeq : ek = (kn, kf) := Prod.ext hek1 hek2
  have hemeq : em = (mn, mf) := Prod.ext hem1 hem2
  have hfst := map_fst_update kn v L
  have hnd' : ((L.map (fun x => if x.1 = kn then (x.1, v) else x)).map Prod.fst).Nodup := by
    rw [hfst]
    exact hnd
  have hupd_em : (if em.1 = kn then (em.1, v) else em) = em := by
    rw [if_neg]
    rw [hem1]
    exact fun hc => hne hc.symm
  have hfind' : (L.map (fun x => if x.1 = kn then (x.1, v) else x)).find?
      (fun x => x.1 = mn) = some em := by
    rw [List.find?_map]
    have hcong : ((fun x : String × List String => decide (x.1 = mn)) ∘
        (fun x => if x.1 = kn then (x.1, v) else x)) =
        (fun x : String × List String => decide (x.1 = mn)) := by
      funext x
      by_cases h : x.1 = kn <;> simp [Function.comp, h]
    rw [hcong, hem, Option.map_some', hupd_em]
  have h1 := sum_map_update g kn v L hnd ek hek
  have h2 := sum_filter_out g mn
    (L.map (fun x => if x.1 = kn then (x.1, v) else x)) hnd' em hfind'
  rw [hekeq] at h1
  rw [hemeq] at h2
  omega

/-- The folder list produced by a successful merge: the kept folder gets the
moved-in files, the merge folder's entry is dropped. -/
def mergedFolders (L : List (String × List String)) (kn mn : String)
    (kf mf : List String) : List (String × List String) :=
  (L.map (fun x => if x.1 = kn then (x.1, mergeMove kf mf) else x)).filter
    (fun x => x.1 ≠ mn)

theorem merge_core (L : List (String × List String)) (kn mn : String)
    (kf mf : List String)
    (hnd : (L.map Prod.fst).Nodup) (hne : kn ≠ mn)
    (hk : (L.find? (fun x => x.1 = kn)).map (fun x => x.2) = some kf)
    (hm : (L.find? (fun x => x.1 = mn)).map (fun x => x.2) = some mf)
    (hdot : ∀ p ∈ mf, pathBase p.data ≠ ".pdf".data) :
    ((mergedFolders L kn mn kf mf).map (fun x => countPdfIn x.2)).sum =
        (L.map (fun x => countPdfIn x.2)).sum ∧
      ((mergedFolders L kn mn kf mf).map (fun x => x.2.length)).sum =
        (L.map (fun x => x.2.length)).sum ∧
      (mergedFolders L kn mn kf mf).find? (fun x => x.1 = mn) = none := by
  unfold mergedFolders
  refine ⟨merge_surgery_sum _ L kn mn _ kf mf hnd hne hk hm ?_,
    merge_surgery_sum _ L kn mn _ kf mf hnd hne hk hm ?_, ?_⟩
  · exact mergeMove_countPdf mf kf hdot
  · exact mergeMove_length mf kf
  · rw [List.find?_eq_none]
    intro x hx
    simpa using (List.mem_filter.mp hx).2

/-- C6 (amended): when both folders are present, their names differ, folder
names are unique in the output directory, and no moved file's base name is
exactly `.pdf` (empty `pathlib` suffix), the merge reports success, the
total PDF count and the total file count over the output directory are
unchanged, and the merge-source folder no longer exists afterwards. -/
theorem C6_merge_conservation (fs : FS) (c1 c2 : CompanyMapping)
    (l1 l2 : List String)
    (h1 : lookupFolder fs c1.folder_name = some l1)
    (h2 : lookupFolder fs c2.folder_name = some l2)
    (hne : c1.folder_name ≠ c2.folder_name)
    (hnd : (fs.folders.map Prod.fst).Nodup)
    (hdot : ∀ p ∈ (if keepFirst (countPdfIn l1) (countPdfIn l2)
          c1.canonical_name c2.canonical_name then l2 else l1),
        pathBase p.data ≠ ".pdf".data) :
    (mergeCompanyFolders fs c1 c2).2 = true ∧
      totalPdf (mergeCompanyFolders fs c1 c2).1 = totalPdf fs ∧
      totalFiles (mergeCompanyFolders fs c1 c2).1 = totalFiles fs ∧
      lookupFolder (mergeCompanyFolders fs c1 c2).1
        (if keepFirst (countPdfIn l1) (countPdfIn l2)
            c1.canonical_name c2.canonical_name
          then c2.folder_name else c1.folder_name) = none := by
  have hM : mergeCompanyFolders fs c1 c2 =
      (⟨mergedFolders fs.folders
        (if keepFirst (countPdfIn l1) (countPdfIn l2)
            c1.canonical_name c2.canonical_name
          then c1.folder_name else c2.folder_name)
        (if keepFirst (countPdfIn l1) (countPdfIn l2)
            c1.canonical_name c2.canonical_name
          then c2.folder_name else c1.folder_name)
        (if keepFirst (countPdfIn l1) (countPdfIn l2)
            c1.canonical_name c2.canonical_name
          then l1 else l2)
        (if keepFirst (countPdfIn l1) (countPdfIn l2)
            c1.canonical_name c2.canonical_name
          then l2 else l1)⟩, true) := by
    unfold mergeCompanyFolders
    rw [h1, h2]
    rfl
  rw [hM]
  by_cases hf : keepFirst (countPdfIn l1) (countPdfIn l2)
      c1.canonical_name c2.canonical_name = true
  · simp only [if_pos hf] at hdot ⊢
    obtain ⟨hc1, hc2, hc3⟩ := merge_core fs.folders c1.folder_name c2.folder_name
      l1 l2 hnd hne h1 h2 hdot
    refine ⟨trivial, hc1, hc2, ?_⟩
    show ((mergedFolders fs.folders c1.folder_name c2.folder_name l1 l2).find?
      (fun x => x.1 = c2.folder_name)).map (fun x => x.2) = none
    rw [hc3]
    rfl
  · simp only [if_neg hf] at hdot ⊢
    obtain ⟨hc1, hc2, hc3⟩ := merge_core fs.folders c2.folder_name c1.folder_name
      l2 l1 hnd (fun hc => hne hc.symm) h2 h1 hdot
    refine ⟨trivial, hc1, hc2, ?_⟩
    show ((mergedFolders fs.folders c2.folder_name c1.folder_name l2 l1).find?
      (fun x => x.1 = c1.folder_name)).map (fun x => x.2) = none
    rw [hc3]
    rfl

/-- An output directory with two folders each holding one file whose base
name is exactly `.pdf` (empty `pathlib` stem rules make its suffix empty). -/
def fsBad : FS := ⟨[("A", [".pdf"]), ("B", [".pdf"])]⟩

def cABad : CompanyMapping := ⟨"A", [], "A"⟩

def cBBad : CompanyMapping := ⟨"B", [], "B"⟩

/-- C6 as stated is false: merging two folders that both hold a file named
exactly `.pdf` succeeds, yet the collision rename to `.pdf_1` stops the
moved file matching `*.pdf`, so the total PDF count drops from 2 to 1. -/
theorem C6_counterexample :
    (mergeCompanyFolders fsBad cABad cBBad).2 = true ∧
      totalPdf fsBad = 2 ∧
      totalPdf (mergeCompanyFolders fsBad cABad cBBad).1 = 1 := by
  decide

def fsWit : FS := ⟨[("A", ["a.pdf"]), ("B", ["a.pdf", "b.txt"])]⟩

def cAWit : CompanyMapping := ⟨"A", [], "A"⟩

def cBWit : CompanyMapping := ⟨"B", [], "B"⟩

theorem C6_merge_conservation_witness :
    (mergeCompanyFolders fsWit cAWit cBWit).2 = true ∧
      totalPdf (mergeCompanyFolders fsWit cAWit cBWit).1 = totalPdf fsWit ∧
      totalFiles (mergeCompanyFolders fsWit cAWit cBWit).1 = totalFiles fsWit ∧
      lookupFolder (mergeCompanyFolders fsWit cAWit cBWit).1
        (if keepFirst (countPdfIn ["a.pdf"]) (countPdfIn ["a.pdf", "b.txt"])
            cAWit.canonical_name cBWit.canonical_name
          then cBWit.folder_name else cAWit.folder_name) = none :=
  C6_merge_conservation fsWit cAWit cBWit ["a.pdf"] ["a.pdf", "b.txt"]
    (by decide) (by decide) (by decide) (by decide) (by decide)

/-- C7: when the moved file collides with a file already in the kept
folder, the move keeps every existing file, appends the moved file renamed
with `_k` before its extension where `k ≥ 1` is the least counter whose
rename is still free (`_1`, then `_2`, ... while colliding), and both the
existing file (under its unchanged name) and the renamed file are present
after the remaining moves. -/
theorem C7_conflict_rename (keep rest : List String) (p : String)
    (hp : p ∈ keep) :
    ∃ k, 1 ≤ k ∧ renamedPathS p k ∉ keep ∧
      (∀ j, 1 ≤ j → j < k → renamedPathS p j ∈ keep) ∧
      moveOne keep p = keep ++ [renamedPathS p k] ∧
      p ∈ mergeMove keep (p :: rest) ∧
      renamedPathS p k ∈ mergeMove keep (p :: rest) := by
  obtain ⟨hfree, hone, hleast⟩ := freshIdx_spec keep p
  refine ⟨freshIdx keep p, hone, hfree, hleast, ?_, ?_, ?_⟩
  · unfold moveOne resolveTarget
    rw [if_pos hp]
  · exact mergeMove_mem rest (moveOne keep p) p (List.mem_append_left _ hp)
  · refine mergeMove_mem rest (moveOne keep p) _ ?_
    unfold moveOne resolveTarget
    rw [if_pos hp]
    simp

theorem C7_conflict_rename_witness :
    moveOne ["a.pdf"] "a.pdf" = ["a.pdf", "a_1.pdf"] ∧
      (∃ k, 1 ≤ k ∧ renamedPathS "a.pdf" k ∉ (["a.pdf"] : List String) ∧
        (∀ j, 1 ≤ j → j < k →
          renamedPathS "a.pdf" j ∈ (["a.pdf"] : List String)) ∧
        moveOne ["a.pdf"] "a.pdf" = ["a.pdf"] ++ [renamedPathS "a.pdf" k] ∧
        "a.pdf" ∈ mergeMove ["a.pdf"] ["a.pdf"] ∧
        renamedPathS "a.pdf" k ∈ mergeMove ["a.pdf"] ["a.pdf"]) :=
  ⟨by decide, C7_conflict_rename ["a.pdf"] [] "a.pdf" (by decide)⟩

end OCRg
